import Mathlib

/-!
Verification of the PowerSysPro analysis core against its specification.

The development shallowly embeds the network-analysis engine of the
repository: the per-unit normalization layer and admittance-matrix builder
(`per_unit.py`), the IEC 60909 short-circuit solver (`short_circuit.py`),
the Newton-Raphson load-flow solver (`load_flow.py`) and the topology
graph's level computation (`topology.py`).  Python floats and complex
numbers are modelled by `ℝ` and `ℂ` (exact rationals `ℚ` where a decidable
evaluation is useful); numpy arrays are modelled by index functions
together with their length; `np.linalg.solve` — an external library call —
is a parameter of the solver state, returning `none` on `LinAlgError`.

The file is laid out as all definitions first, then all theorems.
-/

namespace PowerSysPro

noncomputable section RealDefs

/-! ## Per-unit system (`src/server/utils/phase3/per_unit.py`) -/

/-- Base values for the per-unit system at a specific voltage level
(`PerUnitBase` dataclass). -/
structure PerUnitBase where
  voltage_kv : ℝ
  power_mva : ℝ

/-- Base impedance in ohms: `(self.voltage_kv ** 2 * 1000) / self.power_mva`. -/
def PerUnitBase.impedance_ohms (b : PerUnitBase) : ℝ :=
  (b.voltage_kv ^ 2 * 1000) / b.power_mva

/-- Base current in amps: `(self.power_mva * 1000) / (sqrt(3) * self.voltage_kv)`. -/
def PerUnitBase.current_amps (b : PerUnitBase) : ℝ :=
  (b.power_mva * 1000) / (Real.sqrt 3 * b.voltage_kv)

/-- The `PerUnitSystem` class.  Its `voltage_bases` dictionary memoizes
`PerUnitBase(voltage_kv, self.base_mva)` per voltage level; since every
entry is created by `add_voltage_level` with the system's single
`base_mva`, the memo is determined by `base_mva` alone and `get_base`
is modelled directly. -/
structure PerUnitSystem where
  base_mva : ℝ

/-- `get_base` / `add_voltage_level`: the base for a voltage level. -/
def PerUnitSystem.get_base (s : PerUnitSystem) (voltage_kv : ℝ) : PerUnitBase :=
  ⟨voltage_kv, s.base_mva⟩

/-- `impedance_to_pu`: ohms to per-unit, `impedance_ohms / base.impedance_ohms`. -/
def PerUnitSystem.impedance_to_pu (s : PerUnitSystem) (impedance_ohms : ℂ)
    (voltage_kv : ℝ) : ℂ :=
  impedance_ohms / ((s.get_base voltage_kv).impedance_ohms : ℂ)

/-- `impedance_to_ohms`: per-unit to ohms, `impedance_pu * base.impedance_ohms`. -/
def PerUnitSystem.impedance_to_ohms (s : PerUnitSystem) (impedance_pu : ℂ)
    (voltage_kv : ℝ) : ℂ :=
  impedance_pu * ((s.get_base voltage_kv).impedance_ohms : ℂ)

/-! ## IEC 60909 short-circuit solver (`src/server/utils/phase3/short_circuit.py`) -/

/-- `ShortCircuitParameters` dataclass. -/
structure ShortCircuitParameters where
  voltage_kv : ℝ
  base_mva : ℝ
  source_impedance : ℂ
  voltage_factor_c : ℝ := 1.1
  frequency_hz : ℝ := 50

/-- `ShortCircuitResult` dataclass (currents in kA). -/
structure ShortCircuitResult where
  i_k3_initial : ℝ
  i_k3_peak : ℝ
  i_k3_breaking : ℝ
  i_k3_steady_state : ℝ
  i_dc : ℝ
  i_k1 : Option ℝ := none
  i_k2 : Option ℝ := none
  z_total : ℂ := 0
  s_k3 : ℝ := 0

/-- `IEC60909Calculator._calculate_peak_factor`: κ from the R/X ratio of the
total fault impedance, `1.0` when `x == 0`, else `1.02 + 0.98 * exp(-3 * r/x)`. -/
def calculate_peak_factor (z_total : ℂ) : ℝ :=
  if z_total.im = 0 then 1
  else 1.02 + 0.98 * Real.exp (-3 * (z_total.re / z_total.im))

/-- `IEC60909Calculator._calculate_decay_factor`: μ, fixed at `1.0`
(far-from-generator / utility-fed simplification). -/
def calculate_decay_factor (_z_total : ℂ) : ℝ := 1

/-- `IEC60909Calculator.calculate_three_phase_fault`.  The Python method is
mirrored line for line; `abs` on a complex float is `Complex.abs`. -/
def calculate_three_phase_fault (params : ShortCircuitParameters)
    (fault_impedance_pu : ℂ) (motor_contribution : Option ℂ) : ShortCircuitResult :=
  let u_n := params.voltage_kv
  let c := params.voltage_factor_c
  let c_u_n := c * u_n
  let z_total_pu :=
    match motor_contribution with
    | none => params.source_impedance + fault_impedance_pu
    | some z_motors_parallel =>
        1 / (1 / (params.source_impedance + fault_impedance_pu) + 1 / z_motors_parallel)
  let z_base : ℝ := (u_n ^ 2 * 1000) / params.base_mva
  let z_total_ohms : ℂ := z_total_pu * (z_base : ℂ)
  let i_k3_initial := (c_u_n * 1000) / (Real.sqrt 3 * Complex.abs z_total_ohms)
  let i_k3_initial_ka := i_k3_initial / 1000
  let kappa := calculate_peak_factor z_total_ohms
  let i_peak_ka := kappa * Real.sqrt 2 * i_k3_initial_ka
  let mu := calculate_decay_factor z_total_ohms
  let i_breaking_ka := mu * i_k3_initial_ka
  let i_steady_state_ka := i_k3_initial_ka
  let i_dc_ka := Real.sqrt 2 * i_k3_initial_ka
  let s_k3_mva := Real.sqrt 3 * u_n * i_k3_initial_ka
  { i_k3_initial := i_k3_initial_ka
    i_k3_peak := i_peak_ka
    i_k3_breaking := i_breaking_ka
    i_k3_steady_state := i_steady_state_ka
    i_dc := i_dc_ka
    z_total := z_total_ohms
    s_k3 := s_k3_mva }

end RealDefs

/-! ## Breaker-rating validation (`src/server/utils/phase3/short_circuit.py`,
`validate_breaker_rating`)

The reported numbers pass through Python's `round(x, ndigits)`, which rounds
half to even; the function's arithmetic is otherwise exact field arithmetic,
modelled on `ℚ` so the results are decidable. -/

/-- Round to the nearest integer, ties to even (Python's `round(x)`). -/
def roundHalfEven (q : ℚ) : ℤ :=
  let f := ⌊q⌋
  let r := q - f
  if r < 1 / 2 then f
  else if 1 / 2 < r then f + 1
  else if f % 2 = 0 then f else f + 1

/-- Python's `round(x, ndigits)` for a nonnegative digit count. -/
def pyRound (q : ℚ) (ndigits : ℕ) : ℚ :=
  (roundHalfEven (q * 10 ^ ndigits) : ℚ) / 10 ^ ndigits

/-- The dictionary returned by `validate_breaker_rating`. -/
structure BreakerValidation where
  fault_current_ka : ℚ
  breaker_rating_ka : ℚ
  required_rating_ka : ℚ
  is_adequate : Bool
  utilization_percent : ℚ
  margin_ka : ℚ
  margin_percent : ℚ
  status : String

/-- `validate_breaker_rating`: compares the breaker rating against the fault
current times a 10% safety margin and reports pass/fail plus numeric margins
(`voltage_kv` is accepted but unused, as in the source). -/
def validate_breaker_rating (fault_current_ka breaker_rating_ka _voltage_kv : ℚ) :
    BreakerValidation :=
  let safety_margin : ℚ := 1.1
  let required_rating := fault_current_ka * safety_margin
  let is_adequate : Bool := breaker_rating_ka ≥ required_rating
  let utilization := (fault_current_ka / breaker_rating_ka) * 100
  let margin_ka := breaker_rating_ka - fault_current_ka
  let margin_percent := (margin_ka / breaker_rating_ka) * 100
  { fault_current_ka := pyRound fault_current_ka 2
    breaker_rating_ka := pyRound breaker_rating_ka 2
    required_rating_ka := pyRound required_rating 2
    is_adequate := is_adequate
    utilization_percent := pyRound utilization 1
    margin_ka := pyRound margin_ka 2
    margin_percent := pyRound margin_percent 1
    status := if is_adequate then "PASS" else "FAIL - UNDERSIZED" }

noncomputable section YbusDefs

/-! ## Admittance-matrix builder (`src/server/utils/phase3/per_unit.py`,
`build_admittance_matrix`) -/

variable {α : Type} [DecidableEq α]

/-- `node_index = {node: i for i, node in enumerate(nodes)}`: a Python dict
comprehension keeps the last index of a repeated node.  A node absent from
the list raises `KeyError` in Python; here the lookup defaults to `0` and the
theorems assume every referenced node is in the list. -/
def node_index (nodes : List α) (a : α) : ℕ :=
  nodes.enum.foldl (fun m p => if p.2 = a then p.1 else m) 0

/-- One iteration of the `build_admittance_matrix` assembly loop for a branch
entry `((from_node, to_node), z)`: skip `z == 0`, otherwise `y = 1/z` is
subtracted from both off-diagonal positions and added to both diagonal
positions.  The four in-place `+=`/`-=` array updates of the source are all
additive, so they are combined into a single additive expression (which also
agrees with the sequential updates when indices coincide). -/
def ybus_step (nodes : List α) (y_bus : ℕ → ℕ → ℂ) (entry : (α × α) × ℂ) :
    ℕ → ℕ → ℂ :=
  if entry.2 = 0 then y_bus
  else fun a b =>
    y_bus a b
      - (if a = node_index nodes entry.1.1 ∧ b = node_index nodes entry.1.2
          then 1 / entry.2 else 0)
      - (if a = node_index nodes entry.1.2 ∧ b = node_index nodes entry.1.1
          then 1 / entry.2 else 0)
      + (if a = node_index nodes entry.1.1 ∧ b = node_index nodes entry.1.1
          then 1 / entry.2 else 0)
      + (if a = node_index nodes entry.1.2 ∧ b = node_index nodes entry.1.2
          then 1 / entry.2 else 0)

/-- `build_admittance_matrix(nodes, impedances)`: fold the assembly step over
the impedance entries starting from the zero matrix (`np.zeros((n, n))`).
The matrix is the index function; its extent is `nodes.length`. -/
def build_admittance_matrix (nodes : List α)
    (impedances : List ((α × α) × ℂ)) : ℕ → ℕ → ℂ :=
  impedances.foldl (ybus_step nodes) (fun _ _ => 0)

end YbusDefs

noncomputable section LoadFlowDefs

/-! ## Newton-Raphson load flow (`src/server/utils/phase3/load_flow.py`) -/

/-- `BusType` enum. -/
inductive BusType where
  | SLACK
  | PV
  | PQ
deriving DecidableEq

/-- `Bus` dataclass: specified and calculated quantities of one bus. -/
structure Bus where
  id : String
  bus_type : BusType
  p_specified : ℝ := 0
  q_specified : ℝ := 0
  v_specified : ℝ := 1
  theta_specified : ℝ := 0
  v_magnitude : ℝ := 1
  v_angle : ℝ := 0
  p_calculated : ℝ := 0
  q_calculated : ℝ := 0

/-- `Branch` dataclass. -/
structure Branch where
  from_bus : String
  to_bus : String
  impedance : ℂ
  p_from : ℝ := 0
  q_from : ℝ := 0
  p_to : ℝ := 0
  q_to : ℝ := 0
  p_loss : ℝ := 0
  q_loss : ℝ := 0

/-- `LoadFlowResult` dataclass. -/
structure LoadFlowResult where
  converged : Bool
  iterations : ℕ
  max_mismatch : ℝ
  buses : List Bus
  branches : List Branch
  total_generation_p : ℝ := 0
  total_generation_q : ℝ := 0
  total_load_p : ℝ := 0
  total_load_q : ℝ := 0
  total_losses_p : ℝ := 0
  total_losses_q : ℝ := 0

/-- Pointwise update of an array modelled as an index function
(`arr[i] = x`). -/
def fnUpdate (f : ℕ → ℝ) (i : ℕ) (x : ℝ) : ℕ → ℝ :=
  fun a => if a = i then x else f a

/-- `np.max(np.abs(arr))` over the first `n` entries of an array.  All
entries taken here are absolute values, hence nonnegative, so seeding the
fold with `0` agrees with numpy's maximum of a nonempty array. -/
def npMaxAbs (f : ℕ → ℝ) (n : ℕ) : ℝ :=
  ((List.range n).map (fun i => |f i|)).foldr max 0

/-- The `NewtonRaphsonLoadFlow` solver state: the constructor arguments,
with `self.buses.values()` kept in insertion order as a list.
`linear_solve` stands for the external `np.linalg.solve` call on the
Jacobian and the mismatch vector; `none` models `np.linalg.LinAlgError`
(the "Jacobian is singular" case). -/
structure NewtonRaphsonLoadFlow where
  buses : List Bus
  y_bus : ℕ → ℕ → ℂ
  bus_index : String → ℕ
  max_iterations : ℕ := 20
  tolerance : ℝ := 1e-6
  linear_solve : (ℕ → ℕ → ℝ) → List ℝ → Option (ℕ → ℝ)

namespace NewtonRaphsonLoadFlow

/-- `self.n_buses = len(buses)`. -/
def n_buses (s : NewtonRaphsonLoadFlow) : ℕ := s.buses.length

/-- `self.slack_buses`. -/
def slack_buses (s : NewtonRaphsonLoadFlow) : List Bus :=
  s.buses.filter (fun b => decide (b.bus_type = BusType.SLACK))

/-- `self.pv_buses`. -/
def pv_buses (s : NewtonRaphsonLoadFlow) : List Bus :=
  s.buses.filter (fun b => decide (b.bus_type = BusType.PV))

/-- `self.pq_buses`. -/
def pq_buses (s : NewtonRaphsonLoadFlow) : List Bus :=
  s.buses.filter (fun b => decide (b.bus_type = BusType.PQ))

/-- `self.n_pq`. -/
def n_pq (s : NewtonRaphsonLoadFlow) : ℕ := s.pq_buses.length

/-- `_calculate_power`, real part: `P_i = Σ_j v_i v_j |Y_ij| cos(θ_i − θ_j − φ_ij)`
with `φ_ij = np.angle(Y_ij)` (`Complex.arg`). -/
def calculate_power_p (s : NewtonRaphsonLoadFlow) (v θ : ℕ → ℝ) : ℕ → ℝ :=
  fun i => ∑ j ∈ Finset.range s.n_buses,
    v i * v j * Complex.abs (s.y_bus i j) *
      Real.cos (θ i - θ j - Complex.arg (s.y_bus i j))

/-- `_calculate_power`, reactive part: the same sum with `sin`. -/
def calculate_power_q (s : NewtonRaphsonLoadFlow) (v θ : ℕ → ℝ) : ℕ → ℝ :=
  fun i => ∑ j ∈ Finset.range s.n_buses,
    v i * v j * Complex.abs (s.y_bus i j) *
      Real.sin (θ i - θ j - Complex.arg (s.y_bus i j))

/-- The `delta_p` array of `solve`: zero, then `p_specified - p_calc[idx]`
written at every non-slack bus's index. -/
def delta_p (s : NewtonRaphsonLoadFlow) (p_calc : ℕ → ℝ) : ℕ → ℝ :=
  s.buses.foldl (fun dp b =>
    if b.bus_type ≠ BusType.SLACK then
      fnUpdate dp (s.bus_index b.id) (b.p_specified - p_calc (s.bus_index b.id))
    else dp) (fun _ => 0)

/-- The `delta_q` array of `solve`: zero, then `q_specified - q_calc[idx]`
written at every PQ bus's index. -/
def delta_q (s : NewtonRaphsonLoadFlow) (q_calc : ℕ → ℝ) : ℕ → ℝ :=
  s.buses.foldl (fun dq b =>
    if b.bus_type = BusType.PQ then
      fnUpdate dq (s.bus_index b.id) (b.q_specified - q_calc (s.bus_index b.id))
    else dq) (fun _ => 0)

/-- `_build_jacobian`: the source fills a `j_size × j_size` matrix by
`for i in range(j_size): jacobian[i, i] = 10.0; if i > 0: jacobian[i, i-1]
= -1.0; jacobian[i-1, i] = -1.0` — constants independent of the voltage
state and of the Y-bus (its own comment calls it "a simplified Jacobian").
This is the loop's result in closed form. -/
def build_jacobian (s : NewtonRaphsonLoadFlow) (_v _θ : ℕ → ℝ) : ℕ → ℕ → ℝ :=
  fun i j =>
    if i < (s.n_buses - 1) + s.n_pq ∧ j < (s.n_buses - 1) + s.n_pq then
      if i = j then 10 else if i = j + 1 ∨ j = i + 1 then -1 else 0
    else 0

/-- `_build_mismatch_vector`: P mismatches of all non-slack buses, then Q
mismatches of the PQ buses. -/
def build_mismatch_vector (s : NewtonRaphsonLoadFlow) (dp dq : ℕ → ℝ) : List ℝ :=
  (s.buses.filter (fun b => decide (b.bus_type ≠ BusType.SLACK))).map
    (fun b => dp (s.bus_index b.id)) ++
  s.pq_buses.map (fun b => dq (s.bus_index b.id))

/-- `_update_state` on `theta`: the k-th non-slack bus gets
`theta[idx] += delta_x[k]`. -/
def update_theta (s : NewtonRaphsonLoadFlow) (θ dx : ℕ → ℝ) : ℕ → ℝ :=
  ((s.buses.filter (fun b => decide (b.bus_type ≠ BusType.SLACK))).enum).foldl
    (fun f p => fnUpdate f (s.bus_index p.2.id) (f (s.bus_index p.2.id) + dx p.1)) θ

/-- `_update_state` on `v`: the k-th PQ bus gets
`v[idx] += delta_x[n_theta + k]` with `n_theta = n_buses - 1`. -/
def update_v (s : NewtonRaphsonLoadFlow) (v dx : ℕ → ℝ) : ℕ → ℝ :=
  (s.pq_buses.enum).foldl
    (fun f p => fnUpdate f (s.bus_index p.2.id)
      (f (s.bus_index p.2.id) + dx (s.n_buses - 1 + p.1))) v

/-- The initial voltage magnitudes of `solve`: flat start `np.ones`, then
`v_specified` written at slack and PV bus indices. -/
def init_v (s : NewtonRaphsonLoadFlow) : ℕ → ℝ :=
  s.pv_buses.foldl (fun f b => fnUpdate f (s.bus_index b.id) b.v_specified)
    (s.slack_buses.foldl (fun f b => fnUpdate f (s.bus_index b.id) b.v_specified)
      (fun _ => 1))

/-- The initial voltage angles of `solve`: `np.zeros`, then
`theta_specified` written at slack bus indices. -/
def init_theta (s : NewtonRaphsonLoadFlow) : ℕ → ℝ :=
  s.slack_buses.foldl (fun f b => fnUpdate f (s.bus_index b.id) b.theta_specified)
    (fun _ => 0)

end NewtonRaphsonLoadFlow

/-- The state of `solve` when its iteration loop finishes: the final arrays,
convergence flag, the Python loop variable `iteration`, and the last
mismatch. -/
structure NRIterOut where
  v : ℕ → ℝ
  theta : ℕ → ℝ
  p_calc : ℕ → ℝ
  q_calc : ℕ → ℝ
  converged : Bool
  iteration : ℕ
  max_mismatch : ℝ

namespace NewtonRaphsonLoadFlow

/-- One pass of the `for iteration in range(1, max_iterations + 1)` loop of
`solve`, at loop counter `k`: compute powers and mismatches; stop converged
when the maximum mismatch is below tolerance; otherwise solve the Jacobian
system (`none` = singular: break non-converged) and update the state,
continuing while `k < max_iterations`. -/
def iterate (s : NewtonRaphsonLoadFlow) (v θ : ℕ → ℝ) (k : ℕ) : NRIterOut :=
  let p_calc := s.calculate_power_p v θ
  let q_calc := s.calculate_power_q v θ
  let dp := s.delta_p p_calc
  let dq := s.delta_q q_calc
  let mm := max (npMaxAbs dp s.n_buses) (npMaxAbs dq s.n_buses)
  if mm < s.tolerance then ⟨v, θ, p_calc, q_calc, true, k, mm⟩
  else
    match s.linear_solve (s.build_jacobian v θ) (s.build_mismatch_vector dp dq) with
    | none => ⟨v, θ, p_calc, q_calc, false, k, mm⟩
    | some dx =>
        if h : k < s.max_iterations then
          s.iterate (s.update_v v dx) (s.update_theta θ dx) (k + 1)
        else ⟨s.update_v v dx, s.update_theta θ dx, p_calc, q_calc, false, k, mm⟩
termination_by s.max_iterations + 1 - k
decreasing_by omega

/-- The maximum absolute power mismatch computed by the first pass of the
loop, at the initial (flat/specified) state. -/
def initial_mismatch (s : NewtonRaphsonLoadFlow) : ℝ :=
  max (npMaxAbs (s.delta_p (s.calculate_power_p s.init_v s.init_theta)) s.n_buses)
    (npMaxAbs (s.delta_q (s.calculate_power_q s.init_v s.init_theta)) s.n_buses)

end NewtonRaphsonLoadFlow

/-- `_compile_results`: generation sums the positive calculated powers, load
sums the absolute values of the negative ones, losses are their difference;
`branches` is left empty by the source. -/
def compile_results (buses : List Bus) (converged : Bool) (iterations : ℕ)
    (max_mismatch : ℝ) : LoadFlowResult :=
  let total_gen_p := ((buses.filter (fun b => decide (0 < b.p_calculated))).map
    (fun b => b.p_calculated)).sum
  let total_gen_q := ((buses.filter (fun b => decide (0 < b.q_calculated))).map
    (fun b => b.q_calculated)).sum
  let total_load_p := ((buses.filter (fun b => decide (b.p_calculated < 0))).map
    (fun b => |b.p_calculated|)).sum
  let total_load_q := ((buses.filter (fun b => decide (b.q_calculated < 0))).map
    (fun b => |b.q_calculated|)).sum
  { converged := converged
    iterations := iterations
    max_mismatch := max_mismatch
    buses := buses
    branches := []
    total_generation_p := total_gen_p
    total_generation_q := total_gen_q
    total_load_p := total_load_p
    total_load_q := total_load_q
    total_losses_p := total_gen_p - total_load_p
    total_losses_q := total_gen_q - total_load_q }

/-- `NewtonRaphsonLoadFlow.solve`: initialize the flat/specified state, run
the iteration loop from counter 1, store the final arrays into the buses and
compile the result.  With `max_iterations = 0` the Python loop body never
runs and the subsequent read of `p_calc` raises `NameError`; that case is
`none`. -/
def NewtonRaphsonLoadFlow.solve (s : NewtonRaphsonLoadFlow) : Option LoadFlowResult :=
  if s.max_iterations = 0 then none
  else
    let out := s.iterate s.init_v s.init_theta 1
    let buses' := s.buses.map (fun b =>
      { b with
        v_magnitude := out.v (s.bus_index b.id)
        v_angle := out.theta (s.bus_index b.id)
        p_calculated := out.p_calc (s.bus_index b.id)
        q_calculated := out.q_calc (s.bus_index b.id) })
    some (compile_results buses' out.converged out.iteration out.max_mismatch)

/-- A concrete two-bus fixture (slack bus `"1"`, PQ bus `"2"`) with the
purely reactive Y-bus `[[-2i, i], [i, -2i]]`, used to probe the Jacobian
builder against the analytic partial derivatives. -/
def two_bus_fixture : NewtonRaphsonLoadFlow where
  buses := [{ id := "1", bus_type := BusType.SLACK },
            { id := "2", bus_type := BusType.PQ, p_specified := -0.5,
              q_specified := -0.2 }]
  y_bus := fun i j => if i = j then ⟨0, -2⟩ else ⟨0, 1⟩
  bus_index := fun id => if id = "1" then 0 else 1
  max_iterations := 20
  tolerance := 1e-6
  linear_solve := fun _ _ => none

/-- A concrete one-bus fixture (a single slack bus, zero Y-bus): its first
power mismatch is identically zero, i.e. already below tolerance. -/
def one_bus_fixture : NewtonRaphsonLoadFlow where
  buses := [{ id := "1", bus_type := BusType.SLACK }]
  y_bus := fun _ _ => 0
  bus_index := fun _ => 0
  max_iterations := 20
  tolerance := 1e-6
  linear_solve := fun _ _ => none

end LoadFlowDefs

section TopologyDefs

/-! ## Topology graph levels (`src/server/utils/phase2/topology.py`) -/

/-- `TopologyNode` dataclass, restricted to the fields `calculate_network_levels`
reads or writes (`id`, `type`, `level`); `tag`, `voltage_level`, `properties`,
the adjacency back-references and `bus_name` are neither read nor written by
the level computation. -/
structure TopologyNode where
  id : String
  type : String
  level : ℤ

/-- The `TopologyGraph` state that `calculate_network_levels` operates on:
the `nodes` dict in insertion order, the `adjacency` defaultdict as an
association list, and the `sources` list maintained by `add_node`. -/
structure TopologyGraph where
  nodes : List TopologyNode
  adjacency : List (String × List String)
  sources : List String

/-- `self.adjacency.get(node_id, [])`. -/
def adj_get (adjacency : List (String × List String)) (node_id : String) :
    List String :=
  match adjacency.find? (fun p => p.1 == node_id) with
  | some p => p.2
  | none => []

/-- The level-update rule at a popped queue entry (`topology.py` line 132):
overwrite when the stored level is `-1` or the new level is smaller. -/
def merge_level (cur : ℤ) (level : ℕ) : ℤ :=
  if cur = -1 ∨ (level : ℤ) < cur then (level : ℤ) else cur

/-- `if node_id in self.nodes: ...update...`: apply the update rule to the
node with the popped id (no-op when the id is absent). -/
def update_level (nodes : List TopologyNode) (node_id : String) (level : ℕ) :
    List TopologyNode :=
  nodes.map (fun n =>
    if n.id = node_id then { n with level := merge_level n.level level } else n)

/-- The body of `for downstream_id in self.adjacency.get(node_id, [])`:
unvisited downstream ids are marked visited and appended to the queue with
`level + 1`. -/
def bfs_enqueue (level : ℕ) (p : List (String × ℕ) × List String) (d : String) :
    List (String × ℕ) × List String :=
  if d ∈ p.2 then p else (p.1 ++ [(d, level + 1)], d :: p.2)

/-- The ids that can ever be appended to the BFS queue: targets of the
adjacency (used only for the termination measure). -/
def bfs_targets (adjacency : List (String × List String)) : Finset String :=
  (adjacency.flatMap (fun p => p.2)).toFinset

theorem adj_get_subset_targets (adjacency : List (String × List String))
    (node_id : String) : ∀ d ∈ adj_get adjacency node_id, d ∈ bfs_targets adjacency := by
  intro d hd
  unfold adj_get at hd
  unfold bfs_targets
  rw [List.mem_toFinset, List.mem_flatMap]
  cases hfind : adjacency.find? (fun p => p.1 == node_id) with
  | none => rw [hfind] at hd; simp at hd
  | some p =>
      rw [hfind] at hd
      exact ⟨p, List.mem_of_find?_eq_some hfind, hd⟩

theorem bfs_enqueue_measure (adjacency : List (String × List String)) (level : ℕ)
    (ds : List String) (hds : ∀ d ∈ ds, d ∈ bfs_targets adjacency) :
    ∀ p : List (String × ℕ) × List String,
      (ds.foldl (bfs_enqueue level) p).1.length +
        2 * (bfs_targets adjacency \ (ds.foldl (bfs_enqueue level) p).2.toFinset).card ≤
      p.1.length + 2 * (bfs_targets adjacency \ p.2.toFinset).card := by
  induction ds with
  | nil => intro p; exact le_refl _
  | cons y t ih =>
      intro p
      rw [List.foldl_cons]
      refine le_trans (ih (fun d hd => hds d (List.mem_cons_of_mem y hd)) _) ?_
      unfold bfs_enqueue
      by_cases hy : y ∈ p.2
      · rw [if_pos hy]
      · rw [if_neg hy]
        have hyT : y ∈ bfs_targets adjacency \ p.2.toFinset := by
          rw [Finset.mem_sdiff, List.mem_toFinset]
          exact ⟨hds y (List.mem_cons_self y t), hy⟩
        have hcard : (bfs_targets adjacency \ (y :: p.2).toFinset).card =
            (bfs_targets adjacency \ p.2.toFinset).card - 1 := by
          rw [List.toFinset_cons, Finset.sdiff_insert, Finset.card_erase_of_mem hyT]
        have hpos : 1 ≤ (bfs_targets adjacency \ p.2.toFinset).card :=
          Finset.card_pos.mpr ⟨y, hyT⟩
        simp only [List.length_append, List.length_singleton, hcard]
        omega

/-- `calculate_network_levels`'s inner `while queue:` loop for one source:
pop (`popleft`) an entry, apply the level update at its id, enqueue its
unvisited downstream ids with `level + 1`, repeat until the queue is empty. -/
def bfs_from (adjacency : List (String × List String)) (nodes : List TopologyNode) :
    List (String × ℕ) → List String → List TopologyNode
  | [], _ => nodes
  | (node_id, level) :: rest, visited =>
      bfs_from adjacency (update_level nodes node_id level)
        ((adj_get adjacency node_id).foldl (bfs_enqueue level) (rest, visited)).1
        ((adj_get adjacency node_id).foldl (bfs_enqueue level) (rest, visited)).2
termination_by q v => q.length + 2 * (bfs_targets adjacency \ v.toFinset).card
decreasing_by
  refine lt_of_le_of_lt
    (bfs_enqueue_measure adjacency level (adj_get adjacency node_id)
      (adj_get_subset_targets adjacency node_id) (rest, visited)) ?_
  simp only [List.length_cons]
  omega

/-- The pop trace of the same loop: the `(node_id, level)` pairs in pop
order.  `bfs_from` is the fold of the level updates over this trace. -/
def bfs_trace (adjacency : List (String × List String)) :
    List (String × ℕ) → List String → List (String × ℕ)
  | [], _ => []
  | (node_id, level) :: rest, visited =>
      (node_id, level) ::
      bfs_trace adjacency
        ((adj_get adjacency node_id).foldl (bfs_enqueue level) (rest, visited)).1
        ((adj_get adjacency node_id).foldl (bfs_enqueue level) (rest, visited)).2
termination_by q v => q.length + 2 * (bfs_targets adjacency \ v.toFinset).card
decreasing_by
  refine lt_of_le_of_lt
    (bfs_enqueue_measure adjacency level (adj_get adjacency node_id)
      (adj_get_subset_targets adjacency node_id) (rest, visited)) ?_
  simp only [List.length_cons]
  omega

/-- The reset pass of `calculate_network_levels`: a non-source node's level
becomes `-1`; sources are left as set by `add_node`. -/
def reset_node (n : TopologyNode) : TopologyNode :=
  if n.type ≠ "Source" then { n with level := -1 } else n

/-- `calculate_network_levels`: reset every non-source node's level to `-1`
(sources keep the `0` set by `add_node`), then run the BFS from each source
id, seeded with the source at level `0` and the source marked visited. -/
def calculate_network_levels (g : TopologyGraph) : TopologyGraph :=
  { g with
    nodes := g.sources.foldl
      (fun nodes source_id => bfs_from g.adjacency nodes [(source_id, 0)] [source_id])
      (g.nodes.map reset_node) }

/-- A concrete two-node fixture: a source `"s"` feeding a bus `"a"`. -/
def topo_fixture : TopologyGraph where
  nodes := [⟨"s", "Source", 0⟩, ⟨"a", "Bus", 0⟩]
  adjacency := [("s", ["a"])]
  sources := ["s"]

/-- Directed reachability in exactly `n` steps through the adjacency. -/
inductive ReachN (adjacency : List (String × List String)) :
    String → ℕ → String → Prop where
  | refl (s : String) : ReachN adjacency s 0 s
  | step {s u v : String} {n : ℕ} : ReachN adjacency s n u →
      v ∈ adj_get adjacency u → ReachN adjacency s (n + 1) v

/-- Directed reachability. -/
def Reaches (adjacency : List (String × List String)) (s x : String) : Prop :=
  ∃ n, ReachN adjacency s n x

/-- The BFS distance: the least number of directed edges from `s` to `x`. -/
noncomputable def bfs_dist (adjacency : List (String × List String))
    (s x : String) : ℕ :=
  sInf { n | ReachN adjacency s n x }

/-- The level update of one pop applied to one node (`update_level` is the
map of this function over the node list). -/
def upd_node (e : String × ℕ) (n : TopologyNode) : TopologyNode :=
  if n.id = e.1 then { n with level := merge_level n.level e.2 } else n

open Classical in
/-- The net effect of the single-source BFS from `s` on one node: its level
is merged with the BFS distance when its id is reachable from `s`, and is
untouched otherwise. -/
noncomputable def source_levelled (adjacency : List (String × List String))
    (s : String) (n : TopologyNode) : TopologyNode :=
  if Reaches adjacency s n.id then
    { n with level := merge_level n.level (bfs_dist adjacency s n.id) }
  else n

open Classical in
/-- The level-only view of `source_levelled` for a fixed node id. -/
noncomputable def source_merge (adjacency : List (String × List String))
    (x : String) (c : ℤ) (s : String) : ℤ :=
  if Reaches adjacency s x then merge_level c (bfs_dist adjacency s x) else c

/-- The loop invariant of the BFS queue/visited state for a run seeded at
source `s`: queued entries carry their exact BFS distance; queue distances
are non-decreasing and within one of the front; queued ids are visited;
a visited id that is no longer queued has all its downstream ids visited;
and the source is visited. -/
structure BfsInv (adjacency : List (String × List String)) (s : String)
    (Q : List (String × ℕ)) (V : List String) : Prop where
  sound : ∀ e ∈ Q, Reaches adjacency s e.1 ∧ bfs_dist adjacency s e.1 = e.2
  sorted : List.Pairwise (fun e f : String × ℕ => e.2 ≤ f.2) Q
  band : ∀ e ∈ Q, ∀ p, Q.head? = some p → e.2 ≤ p.2 + 1
  inV : ∀ e ∈ Q, e.1 ∈ V
  closed : ∀ v ∈ V, (∀ e ∈ Q, e.1 ≠ v) → ∀ w ∈ adj_get adjacency v, w ∈ V
  src : s ∈ V

end TopologyDefs

/-! # Theorems -/

theorem base_impedance_pos (s : PerUnitSystem) (v : ℝ) (hv : 0 < v)
    (hs : 0 < s.base_mva) : 0 < (s.get_base v).impedance_ohms := by
  unfold PerUnitSystem.get_base PerUnitBase.impedance_ohms
  positivity

/-- Claim C4: within a single `PerUnitSystem`, for every complex impedance `z`
and voltage level `V > 0` (with the system's base power positive), converting
per-unit → ohms → per-unit returns `z` exactly — hence in particular within
`1e-9` relative error — and symmetrically for ohms → per-unit → ohms. -/
theorem per_unit_roundtrip (s : PerUnitSystem) (z : ℂ) (v : ℝ)
    (hv : 0 < v) (hs : 0 < s.base_mva) :
    s.impedance_to_pu (s.impedance_to_ohms z v) v = z ∧
    s.impedance_to_ohms (s.impedance_to_pu z v) v = z ∧
    Complex.abs (s.impedance_to_pu (s.impedance_to_ohms z v) v - z)
      ≤ 1e-9 * Complex.abs z ∧
    Complex.abs (s.impedance_to_ohms (s.impedance_to_pu z v) v - z)
      ≤ 1e-9 * Complex.abs z := by
  have hb : ((s.get_base v).impedance_ohms : ℂ) ≠ 0 := by
    exact_mod_cast ne_of_gt (base_impedance_pos s v hv hs)
  have h1 : s.impedance_to_pu (s.impedance_to_ohms z v) v = z := by
    unfold PerUnitSystem.impedance_to_pu PerUnitSystem.impedance_to_ohms
    field_simp
  have h2 : s.impedance_to_ohms (s.impedance_to_pu z v) v = z := by
    unfold PerUnitSystem.impedance_to_pu PerUnitSystem.impedance_to_ohms
    field_simp
  refine ⟨h1, h2, ?_, ?_⟩
  · rw [h1]
    simp
    positivity
  · rw [h2]
    simp
    positivity

/-- Witness for C4 at a concrete input: the 100 MVA system, `z = 3 + 4i`,
`V = 11` kV. -/
theorem per_unit_roundtrip_witness :
    (0 : ℝ) < 11 ∧ (0 : ℝ) < (PerUnitSystem.mk 100).base_mva ∧
    (PerUnitSystem.mk 100).impedance_to_pu
      ((PerUnitSystem.mk 100).impedance_to_ohms ⟨3, 4⟩ 11) 11 = ⟨3, 4⟩ :=
  ⟨by norm_num, by norm_num,
    (per_unit_roundtrip ⟨100⟩ ⟨3, 4⟩ 11 (by norm_num) (by norm_num)).1⟩

/-- Claim C2: with no motor contribution, a nonzero total per-unit impedance
`Z = source + fault` and `Un > 0`, the returned initial symmetrical current is
`(c·Un)/(√3·|Z_ohms|)` with `Z_ohms = Z·(Un²·1000/base_MVA)`, and the returned
short-circuit power is `√3·Un·I''k3`. -/
theorem three_phase_fault_formulas (params : ShortCircuitParameters) (zf : ℂ)
    (_hz : params.source_impedance + zf ≠ 0) (_hu : 0 < params.voltage_kv) :
    (calculate_three_phase_fault params zf none).i_k3_initial =
      (params.voltage_factor_c * params.voltage_kv) /
        (Real.sqrt 3 * Complex.abs ((params.source_impedance + zf) *
          (((params.voltage_kv ^ 2 * 1000) / params.base_mva : ℝ) : ℂ))) ∧
    (calculate_three_phase_fault params zf none).s_k3 =
      Real.sqrt 3 * params.voltage_kv *
        (calculate_three_phase_fault params zf none).i_k3_initial := by
  constructor
  · show (params.voltage_factor_c * params.voltage_kv * 1000) /
        (Real.sqrt 3 * Complex.abs _) / 1000 = _
    rw [div_div, mul_div_mul_right _ _ (by norm_num : (1000 : ℝ) ≠ 0)]
  · rfl

/-- Witness for C2: source impedance `0.2 + 2i` pu, fault impedance `0`,
`Un = 0.4` kV. -/
theorem three_phase_fault_formulas_witness :
    ((⟨0.4, 100, ⟨0.2, 2⟩, 1.1, 50⟩ : ShortCircuitParameters).source_impedance
        + 0 ≠ 0) ∧
    ((0 : ℝ) < 0.4) ∧
    (calculate_three_phase_fault ⟨0.4, 100, ⟨0.2, 2⟩, 1.1, 50⟩ 0 none).s_k3 =
      Real.sqrt 3 * 0.4 *
        (calculate_three_phase_fault ⟨0.4, 100, ⟨0.2, 2⟩, 1.1, 50⟩ 0 none).i_k3_initial := by
  have h : ((⟨0.4, 100, ⟨0.2, 2⟩, 1.1, 50⟩ : ShortCircuitParameters).source_impedance
      + 0 ≠ 0) := by
    simp [Complex.ext_iff]
  exact ⟨h, by norm_num,
    (three_phase_fault_formulas ⟨0.4, 100, ⟨0.2, 2⟩, 1.1, 50⟩ 0 h (by norm_num)).2⟩

/-- Claim C5: for a fixed (physically meaningful, hence positive) nominal
voltage, voltage factor and base MVA, the initial symmetrical current is
strictly decreasing in the magnitude of the total fault impedance
`source + fault`: `|Z₁| < |Z₂|` gives `I''k3(Z₁) > I''k3(Z₂)`. -/
theorem three_phase_fault_monotonic (params : ShortCircuitParameters)
    (zf1 zf2 : ℂ)
    (hu : 0 < params.voltage_kv) (hc : 0 < params.voltage_factor_c)
    (hb : 0 < params.base_mva)
    (h1 : params.source_impedance + zf1 ≠ 0)
    (hlt : Complex.abs (params.source_impedance + zf1) <
      Complex.abs (params.source_impedance + zf2)) :
    (calculate_three_phase_fault params zf2 none).i_k3_initial <
      (calculate_three_phase_fault params zf1 none).i_k3_initial := by
  have hzb : (0 : ℝ) < (params.voltage_kv ^ 2 * 1000) / params.base_mva := by
    positivity
  have habs : ∀ z : ℂ, Complex.abs (z * (((params.voltage_kv ^ 2 * 1000) /
      params.base_mva : ℝ) : ℂ)) =
      Complex.abs z * ((params.voltage_kv ^ 2 * 1000) / params.base_mva) := by
    intro z
    rw [map_mul, Complex.abs_ofReal, abs_of_pos hzb]
  show (params.voltage_factor_c * params.voltage_kv * 1000) /
      (Real.sqrt 3 * Complex.abs _) / 1000 <
    (params.voltage_factor_c * params.voltage_kv * 1000) /
      (Real.sqrt 3 * Complex.abs _) / 1000
  rw [habs, habs]
  have hs3 : (0 : ℝ) < Real.sqrt 3 := Real.sqrt_pos.mpr (by norm_num)
  have key : (params.voltage_factor_c * params.voltage_kv * 1000) /
      (Real.sqrt 3 * (Complex.abs (params.source_impedance + zf2) *
        ((params.voltage_kv ^ 2 * 1000) / params.base_mva))) <
      (params.voltage_factor_c * params.voltage_kv * 1000) /
      (Real.sqrt 3 * (Complex.abs (params.source_impedance + zf1) *
        ((params.voltage_kv ^ 2 * 1000) / params.base_mva))) := by
    have hA1 : 0 < Complex.abs (params.source_impedance + zf1) :=
      Complex.abs.pos h1
    apply div_lt_div_of_pos_left (by positivity) (by positivity)
    have := mul_lt_mul_of_pos_right hlt hzb
    exact mul_lt_mul_of_pos_left this hs3
  exact div_lt_div_of_pos_right key (by norm_num)

/-- Witness for C5: source impedance `1i`, fault impedances `0` and `1i`
(totals of magnitude 1 and 2), `Un = 0.4` kV, `c = 1.1`, base 100 MVA. -/
theorem three_phase_fault_monotonic_witness :
    ((0 : ℝ) < 0.4) ∧
    Complex.abs ((⟨0.4, 100, ⟨0, 1⟩, 1.1, 50⟩ : ShortCircuitParameters).source_impedance
        + 0) <
      Complex.abs ((⟨0.4, 100, ⟨0, 1⟩, 1.1, 50⟩ : ShortCircuitParameters).source_impedance
        + ⟨0, 1⟩) ∧
    (calculate_three_phase_fault ⟨0.4, 100, ⟨0, 1⟩, 1.1, 50⟩ ⟨0, 1⟩ none).i_k3_initial <
      (calculate_three_phase_fault ⟨0.4, 100, ⟨0, 1⟩, 1.1, 50⟩ 0 none).i_k3_initial := by
  have h1 : ((⟨0.4, 100, ⟨0, 1⟩, 1.1, 50⟩ : ShortCircuitParameters).source_impedance
      + 0 ≠ 0) := by
    simp [Complex.ext_iff]
  have hlt : Complex.abs ((⟨0.4, 100, ⟨0, 1⟩, 1.1, 50⟩ :
        ShortCircuitParameters).source_impedance + 0) <
      Complex.abs ((⟨0.4, 100, ⟨0, 1⟩, 1.1, 50⟩ :
        ShortCircuitParameters).source_impedance + ⟨0, 1⟩) := by
    show Complex.abs (⟨0, 1⟩ + 0) < Complex.abs (⟨0, 1⟩ + ⟨0, 1⟩)
    rw [show ((⟨0, 1⟩ : ℂ) + 0) = Complex.I by simp [Complex.ext_iff],
      show ((⟨0, 1⟩ : ℂ) + ⟨0, 1⟩) = 2 * Complex.I by
        simp [Complex.ext_iff]
        norm_num]
    rw [map_mul, Complex.abs_I, Complex.abs_two]
    norm_num
  exact ⟨by norm_num, hlt,
    three_phase_fault_monotonic ⟨0.4, 100, ⟨0, 1⟩, 1.1, 50⟩ 0 ⟨0, 1⟩
      (by norm_num) (by norm_num) (by norm_num) h1 hlt⟩

/-- Claim C8: for every fault impedance and optional motor contribution,
the returned peak current is `κ·√2·I''k3` where κ is the peak factor of the
returned total fault impedance; for `X ≠ 0` the factor is
`1.02 + 0.98·e^(−3·R/X)` with R, X the real and imaginary parts of that
impedance, and for `X = 0` the guard returns `1` without dividing by zero. -/
theorem peak_current_formula (params : ShortCircuitParameters)
    (fault_impedance_pu : ℂ) (motor_contribution : Option ℂ) :
    (calculate_three_phase_fault params fault_impedance_pu motor_contribution).i_k3_peak =
      calculate_peak_factor
        (calculate_three_phase_fault params fault_impedance_pu motor_contribution).z_total *
      Real.sqrt 2 *
      (calculate_three_phase_fault params fault_impedance_pu motor_contribution).i_k3_initial ∧
    (∀ z : ℂ, z.im ≠ 0 →
      calculate_peak_factor z = 1.02 + 0.98 * Real.exp (-3 * (z.re / z.im))) ∧
    (∀ z : ℂ, z.im = 0 → calculate_peak_factor z = 1) := by
  refine ⟨rfl, ?_, ?_⟩
  · intro z hz
    unfold calculate_peak_factor
    rw [if_neg hz]
  · intro z hz
    unfold calculate_peak_factor
    rw [if_pos hz]

theorem roundHalfEven_eval (q : ℚ) (n : ℤ) (hf : ⌊q⌋ = n) :
    roundHalfEven q =
      if q - n < 1 / 2 then n
      else if 1 / 2 < q - n then n + 1
      else if n % 2 = 0 then n else n + 1 := by
  unfold roundHalfEven
  rw [hf]

/-- Claim C9 as stated is false: the reported `margin_percent` is the rounded
value `round((r−f)/r·100, 1)`, not the exact quotient.  At fault current 1 kA
and rating 3 kA the exact margin is `200/3 = 66.66…` while the function
reports `66.7`. -/
theorem breaker_margin_rounds :
    (validate_breaker_rating 1 3 0.4).margin_percent ≠ (3 - 1) / 3 * 100 := by
  show pyRound ((3 - 1) / 3 * 100) 1 ≠ (3 - 1) / 3 * 100
  unfold pyRound
  have hf : ⌊((3 - 1) / 3 * 100 * 10 ^ 1 : ℚ)⌋ = 666 := by
    rw [Int.floor_eq_iff]
    constructor <;> norm_num
  rw [roundHalfEven_eval _ 666 hf]
  norm_num

/-- Claim C9, amended for the rounding: `is_adequate` holds iff
`r ≥ 1.10·f`, the reported margin is `(r−f)/r·100` rounded to one decimal
place, and in Scenario D (rating 10 kA, fault 12 kA) the breaker is reported
inadequate with a negative margin. -/
theorem breaker_validation_correct (f r v : ℚ) (_hf : 0 < f) (_hr : 0 < r) :
    ((validate_breaker_rating f r v).is_adequate = true ↔ r ≥ 1.1 * f) ∧
    (validate_breaker_rating f r v).margin_percent =
      pyRound ((r - f) / r * 100) 1 ∧
    (validate_breaker_rating 12 10 v).is_adequate = false ∧
    (validate_breaker_rating 12 10 v).margin_percent < 0 := by
  refine ⟨?_, rfl, ?_, ?_⟩
  · show (decide (r ≥ f * 1.1) = true ↔ r ≥ 1.1 * f)
    rw [decide_eq_true_iff, mul_comm]
  · show decide ((10 : ℚ) ≥ 12 * 1.1) = false
    rw [decide_eq_false_iff_not]
    norm_num
  · show pyRound ((10 - 12) / 10 * 100) 1 < 0
    unfold pyRound
    have hf : ⌊((10 - 12) / 10 * 100 * 10 ^ 1 : ℚ)⌋ = -200 := by
      rw [Int.floor_eq_iff]
      constructor <;> norm_num
    rw [roundHalfEven_eval _ (-200) hf]
    norm_num

/-- Witness for C9 (amended) at fault current 1 kA, rating 2 kA. -/
theorem breaker_validation_correct_witness :
    (0 : ℚ) < 1 ∧ (0 : ℚ) < 2 ∧
    ((validate_breaker_rating 1 2 0.4).is_adequate = true ↔ (2 : ℚ) ≥ 1.1 * 1) :=
  ⟨by norm_num, by norm_num,
    (breaker_validation_correct 1 2 0.4 (by norm_num) (by norm_num)).1⟩

theorem last_index_foldl_choice {β : Type} [DecidableEq β] (l : List (ℕ × β)) (a : β)
    (init : ℕ) :
    l.foldl (fun m p => if p.2 = a then p.1 else m) init = init ∨
    ∃ p ∈ l, l.foldl (fun m p => if p.2 = a then p.1 else m) init = p.1 := by
  induction l generalizing init with
  | nil => exact Or.inl rfl
  | cons q t ih =>
    rw [List.foldl_cons]
    rcases ih (if q.2 = a then q.1 else init) with h | ⟨p, hp, h⟩
    · by_cases hq : q.2 = a
      · right
        exact ⟨q, List.mem_cons_self q t, by rw [h, if_pos hq]⟩
      · left
        rw [h, if_neg hq]
    · right
      exact ⟨p, List.mem_cons_of_mem q hp, h⟩

theorem node_index_lt {α : Type} [DecidableEq α] (nodes : List α) (a : α)
    (h : nodes ≠ []) : node_index nodes a < nodes.length := by
  have hlen : 0 < nodes.length := List.length_pos.mpr h
  unfold node_index
  rcases last_index_foldl_choice nodes.enum a 0 with h0 | ⟨p, hp, hp'⟩
  · rw [h0]; exact hlen
  · rw [hp']
    have := List.mem_enum_iff_getElem?.mp hp
    have := List.getElem?_eq_some.mp this
    exact this.1

theorem sum_ite_pair (n : ℕ) (P : Prop) [Decidable P] (c : ℕ) (hc : c < n) (y : ℂ) :
    (∑ b ∈ Finset.range n, if P ∧ b = c then y else 0) = if P then y else 0 := by
  by_cases hP : P
  · simp only [hP, true_and, if_true]
    rw [Finset.sum_ite_eq' (Finset.range n) c (fun _ => y)]
    rw [if_pos (Finset.mem_range.mpr hc)]
  · simp [hP]

theorem ybus_step_row_sum {α : Type} [DecidableEq α] (nodes : List α)
    (y_bus : ℕ → ℕ → ℂ) (entry : (α × α) × ℂ)
    (h1 : entry.1.1 ∈ nodes) (_h2 : entry.1.2 ∈ nodes) (i : ℕ)
    (hrow : (∑ b ∈ Finset.range nodes.length, y_bus i b) = 0) :
    (∑ b ∈ Finset.range nodes.length, ybus_step nodes y_bus entry i b) = 0 := by
  unfold ybus_step
  by_cases hz : entry.2 = 0
  · rw [if_pos hz]; exact hrow
  · rw [if_neg hz]
    have hne : nodes ≠ [] := List.ne_nil_of_mem h1
    have hi := node_index_lt nodes entry.1.1 hne
    have hj := node_index_lt nodes entry.1.2 hne
    simp only [Finset.sum_sub_distrib, Finset.sum_add_distrib]
    rw [hrow, sum_ite_pair _ _ _ hj, sum_ite_pair _ _ _ hi, sum_ite_pair _ _ _ hi,
      sum_ite_pair _ _ _ hj]
    ring

theorem ybus_foldl_row_sum {α : Type} [DecidableEq α] (nodes : List α)
    (impedances : List ((α × α) × ℂ)) (m0 : ℕ → ℕ → ℂ)
    (h : ∀ e ∈ impedances, e.1.1 ∈ nodes ∧ e.1.2 ∈ nodes) (i : ℕ)
    (hrow : (∑ b ∈ Finset.range nodes.length, m0 i b) = 0) :
    (∑ b ∈ Finset.range nodes.length,
      (impedances.foldl (ybus_step nodes) m0) i b) = 0 := by
  induction impedances generalizing m0 with
  | nil => exact hrow
  | cons e t ih =>
    rw [List.foldl_cons]
    refine ih _ (fun e' he' => h e' (List.mem_cons_of_mem e he')) ?_
    have he := h e (List.mem_cons_self e t)
    exact ybus_step_row_sum nodes m0 e he.1 he.2 i hrow

/-- Claim C6: for every node list and branch-impedance map whose entries
reference listed nodes (a network with no shunt elements), each row of the
assembled Y-bus sums to zero over the matrix extent, and an entry with zero
impedance is skipped (leaves the matrix unchanged) rather than producing an
infinite admittance. -/
theorem ybus_row_sums {α : Type} [DecidableEq α] (nodes : List α)
    (impedances : List ((α × α) × ℂ))
    (h : ∀ e ∈ impedances, e.1.1 ∈ nodes ∧ e.1.2 ∈ nodes) :
    (∀ i, (∑ b ∈ Finset.range nodes.length,
      build_admittance_matrix nodes impedances i b) = 0) ∧
    (∀ (y_bus : ℕ → ℕ → ℂ) (a b : α),
      ybus_step nodes y_bus ((a, b), 0) = y_bus) := by
  constructor
  · intro i
    exact ybus_foldl_row_sum nodes impedances _ h i (by simp)
  · intro y_bus a b
    unfold ybus_step
    exact if_pos rfl

/-- Claim C10: for every compiled load-flow result — converged or not — the
loss totals equal generation minus load by construction (generation summing
the buses with positive calculated power, load summing the absolute values
over buses with negative calculated power), so the power-balance equation
generation = load + losses holds identically. -/
theorem compile_results_power_balance (buses : List Bus) (converged : Bool)
    (iterations : ℕ) (max_mismatch : ℝ) :
    (compile_results buses converged iterations max_mismatch).total_losses_p =
      (compile_results buses converged iterations max_mismatch).total_generation_p -
      (compile_results buses converged iterations max_mismatch).total_load_p ∧
    (compile_results buses converged iterations max_mismatch).total_losses_q =
      (compile_results buses converged iterations max_mismatch).total_generation_q -
      (compile_results buses converged iterations max_mismatch).total_load_q ∧
    (compile_results buses converged iterations max_mismatch).total_generation_p =
      (compile_results buses converged iterations max_mismatch).total_load_p +
      (compile_results buses converged iterations max_mismatch).total_losses_p ∧
    (compile_results buses converged iterations max_mismatch).total_generation_q =
      (compile_results buses converged iterations max_mismatch).total_load_q +
      (compile_results buses converged iterations max_mismatch).total_losses_q := by
  have hp : (compile_results buses converged iterations max_mismatch).total_losses_p =
      (compile_results buses converged iterations max_mismatch).total_generation_p -
      (compile_results buses converged iterations max_mismatch).total_load_p := rfl
  have hq : (compile_results buses converged iterations max_mismatch).total_losses_q =
      (compile_results buses converged iterations max_mismatch).total_generation_q -
      (compile_results buses converged iterations max_mismatch).total_load_q := rfl
  refine ⟨hp, hq, ?_, ?_⟩
  · rw [hp]; ring
  · rw [hq]; ring

theorem iterate_of_converged (s : NewtonRaphsonLoadFlow) (v θ : ℕ → ℝ) (k : ℕ)
    (h : max (npMaxAbs (s.delta_p (s.calculate_power_p v θ)) s.n_buses)
      (npMaxAbs (s.delta_q (s.calculate_power_q v θ)) s.n_buses) < s.tolerance) :
    s.iterate v θ k = ⟨v, θ, s.calculate_power_p v θ, s.calculate_power_q v θ, true, k,
      max (npMaxAbs (s.delta_p (s.calculate_power_p v θ)) s.n_buses)
        (npMaxAbs (s.delta_q (s.calculate_power_q v θ)) s.n_buses)⟩ := by
  rw [NewtonRaphsonLoadFlow.iterate]
  rw [if_pos h]

theorem solve_eq_of_flat (s : NewtonRaphsonLoadFlow)
    (h0 : s.max_iterations ≠ 0) (hflat : s.initial_mismatch < s.tolerance) :
    s.solve = some (compile_results
      (s.buses.map (fun b =>
        { b with
          v_magnitude := s.init_v (s.bus_index b.id)
          v_angle := s.init_theta (s.bus_index b.id)
          p_calculated := s.calculate_power_p s.init_v s.init_theta (s.bus_index b.id)
          q_calculated := s.calculate_power_q s.init_v s.init_theta (s.bus_index b.id) }))
      true 1 s.initial_mismatch) := by
  have hit := iterate_of_converged s s.init_v s.init_theta 1 hflat
  unfold NewtonRaphsonLoadFlow.solve
  rw [if_neg h0, hit]
  rfl

theorem one_bus_fixture_flat : one_bus_fixture.initial_mismatch = 0 := by
  have hdp : ∀ f : ℕ → ℝ, one_bus_fixture.delta_p f = fun _ => 0 := by
    intro f
    simp [NewtonRaphsonLoadFlow.delta_p, one_bus_fixture]
  have hdq : ∀ f : ℕ → ℝ, one_bus_fixture.delta_q f = fun _ => 0 := by
    intro f
    simp [NewtonRaphsonLoadFlow.delta_q, one_bus_fixture]
  unfold NewtonRaphsonLoadFlow.initial_mismatch
  rw [hdp, hdq]
  simp [npMaxAbs, one_bus_fixture, NewtonRaphsonLoadFlow.n_buses]

/-- Claim C3 as stated is false on the `iterations` count: on a solver whose
first mismatch is flat (the one-bus fixture, mismatch identically 0), `solve`
returns converged but reports `iterations = 1`, not 0 — the loop counter
`for iteration in range(1, ...)` has value 1 when the convergence check
breaks. -/
theorem solve_flat_iterations_ne_zero :
    one_bus_fixture.initial_mismatch < one_bus_fixture.tolerance ∧
    one_bus_fixture.solve.map (fun r => r.iterations) = some 1 ∧ (1 : ℕ) ≠ 0 := by
  have hflat : one_bus_fixture.initial_mismatch < one_bus_fixture.tolerance := by
    rw [one_bus_fixture_flat]
    norm_num [one_bus_fixture]
  refine ⟨hflat, ?_, by norm_num⟩
  rw [solve_eq_of_flat one_bus_fixture (by norm_num [one_bus_fixture]) hflat]
  rfl

/-- Claim C3, amended: for every solver whose first computed power mismatch
is already below the convergence tolerance (flat mismatch), `solve` returns
converged = true with `iterations = 1` (the loop counter counts the
convergence check as the first iteration) and bus voltage magnitudes and
angles identical to the specified/initial state. -/
theorem solve_flat_converges (s : NewtonRaphsonLoadFlow)
    (hmax : 1 ≤ s.max_iterations) (hflat : s.initial_mismatch < s.tolerance) :
    ∃ res, s.solve = some res ∧ res.converged = true ∧ res.iterations = 1 ∧
      res.buses.map (fun b => b.v_magnitude) =
        s.buses.map (fun b => s.init_v (s.bus_index b.id)) ∧
      res.buses.map (fun b => b.v_angle) =
        s.buses.map (fun b => s.init_theta (s.bus_index b.id)) := by
  have hb : ∀ (l : List Bus) (c : Bool) (i : ℕ) (m : ℝ),
      (compile_results l c i m).buses = l := fun _ _ _ _ => rfl
  refine ⟨_, solve_eq_of_flat s (by omega) hflat, rfl, rfl, ?_, ?_⟩
  · rw [hb, List.map_map]
    rfl
  · rw [hb, List.map_map]
    rfl

/-- Witness for C3 (amended) on the one-bus fixture. -/
theorem solve_flat_converges_witness :
    1 ≤ one_bus_fixture.max_iterations ∧
    one_bus_fixture.initial_mismatch < one_bus_fixture.tolerance ∧
    ∃ res, one_bus_fixture.solve = some res ∧ res.converged = true ∧
      res.iterations = 1 ∧
      res.buses.map (fun b => b.v_magnitude) =
        one_bus_fixture.buses.map
          (fun b => one_bus_fixture.init_v (one_bus_fixture.bus_index b.id)) ∧
      res.buses.map (fun b => b.v_angle) =
        one_bus_fixture.buses.map
          (fun b => one_bus_fixture.init_theta (one_bus_fixture.bus_index b.id)) := by
  have hflat : one_bus_fixture.initial_mismatch < one_bus_fixture.tolerance := by
    rw [one_bus_fixture_flat]
    norm_num [one_bus_fixture]
  exact ⟨by norm_num [one_bus_fixture], hflat,
    solve_flat_converges one_bus_fixture (by norm_num [one_bus_fixture]) hflat⟩

/-- Claim C1: the matrix returned by `_build_jacobian` is NOT the Jacobian of
partial derivatives of the calculated powers — the source fills it with
state-independent placeholder constants (diagonal `10.0`, off-diagonal
`-1.0`), contradicting its own docstring.  On the two-bus fixture at the flat
state, entry (0,0) of the built matrix is `10`, while the true partial
derivative `∂P₂/∂θ₂` of the calculated power at that state is `1`: the
function `t ↦ P₂(θ₂ = t)` is `sin` and has derivative `1` at `0`. -/
theorem jacobian_is_placeholder :
    (∀ (s : NewtonRaphsonLoadFlow) (v θ v' θ' : ℕ → ℝ),
      s.build_jacobian v θ = s.build_jacobian v' θ') ∧
    two_bus_fixture.build_jacobian (fun _ => 1) (fun _ => 0) 0 0 = 10 ∧
    HasDerivAt (fun t : ℝ =>
      two_bus_fixture.calculate_power_p (fun _ => 1)
        (fun i => if i = 1 then t else 0) 1) 1 0 ∧
    (1 : ℝ) ≠ 10 := by
  refine ⟨fun s v θ v' θ' => rfl, ?_, ?_, by norm_num⟩
  · simp [NewtonRaphsonLoadFlow.build_jacobian, NewtonRaphsonLoadFlow.n_buses,
      NewtonRaphsonLoadFlow.n_pq, NewtonRaphsonLoadFlow.pq_buses, two_bus_fixture]
  · have habs1 : Complex.abs ⟨0, 1⟩ = 1 := by
      rw [Complex.abs_apply, Complex.normSq_mk]
      norm_num
    have habs2 : Complex.abs ⟨0, -2⟩ = 2 := by
      rw [Complex.abs_apply, Complex.normSq_mk]
      rw [show ((0 : ℝ) * 0 + -2 * -2) = 2 ^ 2 by norm_num]
      exact Real.sqrt_sq (by norm_num)
    have harg1 : Complex.arg ⟨0, 1⟩ = Real.pi / 2 := by
      rw [Complex.arg_eq_pi_div_two_iff]
      norm_num
    have harg2 : Complex.arg ⟨0, -2⟩ = -(Real.pi / 2) := by
      rw [Complex.arg_eq_neg_pi_div_two_iff]
      norm_num
    have hfun : (fun t : ℝ =>
        two_bus_fixture.calculate_power_p (fun _ => 1)
          (fun i => if i = 1 then t else 0) 1) = Real.sin := by
      funext t
      show (∑ j ∈ Finset.range two_bus_fixture.n_buses, _) = Real.sin t
      rw [show two_bus_fixture.n_buses = 2 from rfl]
      rw [Finset.sum_range_succ, Finset.sum_range_succ, Finset.sum_range_zero]
      show 0 + 1 * 1 * Complex.abs (two_bus_fixture.y_bus 1 0) *
          Real.cos ((if (1 : ℕ) = 1 then t else 0) - (if (0 : ℕ) = 1 then t else 0)
            - Complex.arg (two_bus_fixture.y_bus 1 0)) +
        1 * 1 * Complex.abs (two_bus_fixture.y_bus 1 1) *
          Real.cos ((if (1 : ℕ) = 1 then t else 0) - (if (1 : ℕ) = 1 then t else 0)
            - Complex.arg (two_bus_fixture.y_bus 1 1)) = Real.sin t
      rw [show two_bus_fixture.y_bus 1 0 = ⟨0, 1⟩ from rfl,
        show two_bus_fixture.y_bus 1 1 = ⟨0, -2⟩ from rfl,
        habs1, habs2, harg1, harg2]
      rw [show (if (1 : ℕ) = 1 then t else 0) = t from if_pos rfl,
        show (if (0 : ℕ) = 1 then t else 0) = 0 from if_neg (by norm_num)]
      rw [show t - 0 - Real.pi / 2 = t - Real.pi / 2 by ring,
        show t - t - -(Real.pi / 2) = Real.pi / 2 by ring,
        Real.cos_sub_pi_div_two, Real.cos_pi_div_two]
      ring
    rw [hfun]
    have h := Real.hasDerivAt_sin 0
    rw [Real.cos_zero] at h
    exact h

/-- Witness for C6: the two-node network with a single branch of impedance
`1` pu between nodes `"1"` and `"2"`. -/
theorem ybus_row_sums_witness :
    (∀ e ∈ [((("1" : String), ("2" : String)), (1 : ℂ))],
      e.1.1 ∈ ["1", "2"] ∧ e.1.2 ∈ ["1", "2"]) ∧
    (∀ i, (∑ b ∈ Finset.range (["1", "2"] : List String).length,
      build_admittance_matrix ["1", "2"] [((("1" : String), ("2" : String)), (1 : ℂ))] i b)
        = 0) := by
  have h : ∀ e ∈ [((("1" : String), ("2" : String)), (1 : ℂ))],
      e.1.1 ∈ (["1", "2"] : List String) ∧ e.1.2 ∈ (["1", "2"] : List String) := by
    intro e he
    simp only [List.mem_singleton] at he
    subst he
    simp
  exact ⟨h, (ybus_row_sums ["1", "2"] [((("1", "2"), 1))] h).1⟩

theorem bfs_dist_le (adjacency : List (String × List String)) (s x : String)
    (n : ℕ) (h : ReachN adjacency s n x) : bfs_dist adjacency s x ≤ n :=
  Nat.sInf_le h

theorem reachN_bfs_dist (adjacency : List (String × List String)) (s x : String)
    (h : Reaches adjacency s x) : ReachN adjacency s (bfs_dist adjacency s x) x :=
  Nat.sInf_mem h

theorem reachN_zero_eq (adjacency : List (String × List String)) (s y : String)
    (h : ReachN adjacency s 0 y) : y = s := by
  cases h
  rfl

theorem reachN_succ_inv (adjacency : List (String × List String)) (s y : String)
    (n : ℕ) (h : ReachN adjacency s (n + 1) y) :
    ∃ u, ReachN adjacency s n u ∧ y ∈ adj_get adjacency u := by
  cases h with
  | step hu hv => exact ⟨_, hu, hv⟩

theorem reachN_mem_closed (adjacency : List (String × List String))
    (V : List String) (hcl : ∀ v ∈ V, ∀ w ∈ adj_get adjacency v, w ∈ V)
    (s : String) (hs : s ∈ V) :
    ∀ (n : ℕ) (y : String), ReachN adjacency s n y → y ∈ V := by
  intro n y h
  induction h with
  | refl => exact hs
  | step _ hv ih => exact hcl _ ih _ hv

theorem bfs_scan_spec (level : ℕ) :
    ∀ (ds : List String) (p : List (String × ℕ) × List String),
      ∃ new : List String,
        (ds.foldl (bfs_enqueue level) p).1 = p.1 ++ new.map (fun y => (y, level + 1)) ∧
        (∀ w, w ∈ (ds.foldl (bfs_enqueue level) p).2 ↔ w ∈ p.2 ∨ w ∈ new) ∧
        (∀ y ∈ new, y ∈ ds ∧ y ∉ p.2) ∧
        (∀ y ∈ ds, y ∈ (ds.foldl (bfs_enqueue level) p).2) := by
  intro ds
  induction ds with
  | nil =>
      intro p
      exact ⟨[], by simp, by simp, by simp, by simp⟩
  | cons y t ih =>
      intro p
      rw [List.foldl_cons]
      by_cases hy : y ∈ p.2
      · have hstep : bfs_enqueue level p y = p := by
          unfold bfs_enqueue
          rw [if_pos hy]
        rw [hstep]
        obtain ⟨new, h1, h2, h3, h4⟩ := ih p
        refine ⟨new, h1, h2, ?_, ?_⟩
        · intro z hz
          exact ⟨List.mem_cons_of_mem y (h3 z hz).1, (h3 z hz).2⟩
        · intro z hz
          rcases List.mem_cons.mp hz with rfl | hz'
          · exact (h2 z).mpr (Or.inl hy)
          · exact h4 z hz'
      · have hstep : bfs_enqueue level p y = (p.1 ++ [(y, level + 1)], y :: p.2) := by
          unfold bfs_enqueue
          rw [if_neg hy]
        rw [hstep]
        obtain ⟨new, h1, h2, h3, h4⟩ := ih (p.1 ++ [(y, level + 1)], y :: p.2)
        refine ⟨y :: new, ?_, ?_, ?_, ?_⟩
        · rw [h1]
          simp
        · intro w
          rw [h2 w]
          simp only [List.mem_cons]
          tauto
        · intro z hz
          rcases List.mem_cons.mp hz with rfl | hz'
          · exact ⟨List.mem_cons_self _ _, hy⟩
          · obtain ⟨hzt, hznv⟩ := h3 z hz'
            exact ⟨List.mem_cons_of_mem _ hzt,
              fun hc => hznv (List.mem_cons_of_mem _ hc)⟩
        · intro z hz
          rcases List.mem_cons.mp hz with rfl | hz'
          · exact (h2 z).mpr (Or.inl (List.mem_cons_self _ _))
          · exact h4 z hz'

theorem frontier_bound (adjacency : List (String × List String)) (s : String)
    (Q : List (String × ℕ)) (V : List String) (inv : BfsInv adjacency s Q V) :
    ∀ y, Reaches adjacency s y → y ∉ V →
      ∃ p, Q.head? = some p ∧ p.2 < bfs_dist adjacency s y := by
  suffices H : ∀ (d : ℕ) (y : String), bfs_dist adjacency s y = d →
      Reaches adjacency s y → y ∉ V →
      ∃ p, Q.head? = some p ∧ p.2 < bfs_dist adjacency s y by
    exact fun y hy hyV => H _ y rfl hy hyV
  intro d
  induction d using Nat.strong_induction_on with
  | _ d IH =>
    intro y hd hy hyV
    have hys : y ≠ s := fun h => hyV (h ▸ inv.src)
    cases d with
    | zero =>
        have h0 : ReachN adjacency s (bfs_dist adjacency s y) y :=
          reachN_bfs_dist adjacency s y hy
        rw [hd] at h0
        exact absurd (reachN_zero_eq adjacency s y h0) hys
    | succ m =>
        have hreach : ReachN adjacency s (m + 1) y := by
          have h0 := reachN_bfs_dist adjacency s y hy
          rwa [hd] at h0
        obtain ⟨u, hu, huy⟩ := reachN_succ_inv adjacency s y m hreach
        have hud : bfs_dist adjacency s u ≤ m := bfs_dist_le adjacency s u m hu
        have hur : Reaches adjacency s u := ⟨m, hu⟩
        by_cases huV : u ∈ V
        · by_cases huQ : ∃ e ∈ Q, e.1 = u
          · obtain ⟨e, heQ, heu⟩ := huQ
            cases hQl : Q with
            | nil =>
                rw [hQl] at heQ
                exact absurd heQ (List.not_mem_nil e)
            | cons q Q' =>
                refine ⟨q, rfl, ?_⟩
                have hqe : q.2 ≤ e.2 := by
                  have hsorted := inv.sorted
                  rw [hQl, List.pairwise_cons] at hsorted
                  rw [hQl] at heQ
                  rcases List.mem_cons.mp heQ with rfl | he'
                  · exact le_refl _
                  · exact hsorted.1 e he'
                have he2 : e.2 = bfs_dist adjacency s u := by
                  have := (inv.sound e heQ).2
                  rw [heu] at this
                  exact this.symm
                rw [hd]
                omega
          · push_neg at huQ
            exact absurd (inv.closed u huV huQ y huy) hyV
        · obtain ⟨p, hp, hlt⟩ :=
            IH (bfs_dist adjacency s u) (by omega) u rfl hur huV
          refine ⟨p, hp, ?_⟩
          rw [hd]
          omega

theorem bfs_inv_step (adjacency : List (String × List String)) (s x : String)
    (d : ℕ) (rest : List (String × ℕ)) (V : List String)
    (inv : BfsInv adjacency s ((x, d) :: rest) V) :
    BfsInv adjacency s
      ((adj_get adjacency x).foldl (bfs_enqueue d) (rest, V)).1
      ((adj_get adjacency x).foldl (bfs_enqueue d) (rest, V)).2 := by
  obtain ⟨new, h1, h2, h3, h4⟩ := bfs_scan_spec d (adj_get adjacency x) (rest, V)
  have hxr : Reaches adjacency s x :=
    (inv.sound (x, d) (List.mem_cons_self _ _)).1
  have hxd : bfs_dist adjacency s x = d :=
    (inv.sound (x, d) (List.mem_cons_self _ _)).2
  have hnew_sound : ∀ y ∈ new,
      Reaches adjacency s y ∧ bfs_dist adjacency s y = d + 1 := by
    intro y hy
    obtain ⟨hyadj, hynV⟩ := h3 y hy
    have hstep : ReachN adjacency s (bfs_dist adjacency s x + 1) y :=
      (reachN_bfs_dist adjacency s x hxr).step hyadj
    have hreach : Reaches adjacency s y := ⟨_, hstep⟩
    have hle : bfs_dist adjacency s y ≤ d + 1 := by
      have := bfs_dist_le adjacency s y _ hstep
      omega
    have hge : d + 1 ≤ bfs_dist adjacency s y := by
      obtain ⟨p, hp, hlt⟩ :=
        frontier_bound adjacency s ((x, d) :: rest) V inv y hreach hynV
      have hpx : p = (x, d) := by
        rw [List.head?_cons] at hp
        exact (Option.some_inj.mp hp).symm
      rw [hpx] at hlt
      omega
    exact ⟨hreach, by omega⟩
  have hband_old : ∀ e ∈ (x, d) :: rest, e.2 ≤ d + 1 := by
    intro e he
    exact inv.band e he (x, d) rfl
  have hsorted_tail := (List.pairwise_cons.mp inv.sorted).2
  have hsorted_head := (List.pairwise_cons.mp inv.sorted).1
  refine ⟨?_, ?_, ?_, ?_, ?_, ?_⟩
  · -- sound
    intro e he
    rw [h1] at he
    rcases List.mem_append.mp he with hr | hn
    · exact inv.sound e (List.mem_cons_of_mem _ hr)
    · obtain ⟨y, hy, rfl⟩ := List.mem_map.mp hn
      exact ⟨(hnew_sound y hy).1, (hnew_sound y hy).2⟩
  · -- sorted
    rw [h1, List.pairwise_append]
    refine ⟨hsorted_tail, ?_, ?_⟩
    · rw [List.pairwise_map]
      exact List.pairwise_of_forall (fun _ _ => le_refl _)
    · intro a ha b hb
      obtain ⟨y, _, rfl⟩ := List.mem_map.mp hb
      exact hband_old a (List.mem_cons_of_mem _ ha)
  · -- band
    intro e he p hp
    rw [h1] at he hp
    have he2 : e.2 ≤ d + 1 := by
      rcases List.mem_append.mp he with hr | hn
      · exact hband_old e (List.mem_cons_of_mem _ hr)
      · obtain ⟨y, _, rfl⟩ := List.mem_map.mp hn
        exact le_refl _
    have hp2 : d ≤ p.2 := by
      cases hrest : rest with
      | nil =>
          rw [hrest] at hp
          rw [List.nil_append] at hp
          have hpmem : p ∈ new.map (fun y => (y, d + 1)) :=
            List.mem_of_mem_head? hp
          obtain ⟨y, _, rfl⟩ := List.mem_map.mp hpmem
          omega
      | cons r rest' =>
          rw [hrest, List.cons_append, List.head?_cons] at hp
          have hrp : r = p := Option.some_inj.mp hp
          have hr2 : d ≤ r.2 := hsorted_head r (by rw [hrest]; exact List.mem_cons_self _ _)
          rw [← hrp]
          exact hr2
    omega
  · -- inV
    intro e he
    rw [h1] at he
    rcases List.mem_append.mp he with hr | hn
    · exact (h2 e.1).mpr (Or.inl (inv.inV e (List.mem_cons_of_mem _ hr)))
    · obtain ⟨y, hy, rfl⟩ := List.mem_map.mp hn
      exact (h2 y).mpr (Or.inr hy)
  · -- closed
    intro v hv hvnotQ w hw
    rcases (h2 v).mp hv with hvV | hvnew
    · by_cases hvx : v = x
      · subst hvx
        exact h4 w hw
      · have hnotQ : ∀ e ∈ (x, d) :: rest, e.1 ≠ v := by
          intro e he
          rcases List.mem_cons.mp he with rfl | hr
          · exact fun h => hvx h.symm
          · refine hvnotQ e ?_
            rw [h1]
            exact List.mem_append_left _ hr
        exact (h2 w).mpr (Or.inl (inv.closed v hvV hnotQ w hw))
    · exfalso
      have hmem : ((v, d + 1) : String × ℕ) ∈
          ((adj_get adjacency x).foldl (bfs_enqueue d) (rest, V)).1 := by
        rw [h1]
        exact List.mem_append_right _ (List.mem_map_of_mem _ hvnew)
      exact hvnotQ _ hmem rfl
  · -- src
    exact (h2 s).mpr (Or.inl inv.src)

theorem bfs_trace_sound (adjacency : List (String × List String)) (s : String) :
    ∀ (Q : List (String × ℕ)) (V : List String), BfsInv adjacency s Q V →
      ∀ e ∈ bfs_trace adjacency Q V,
        Reaches adjacency s e.1 ∧ bfs_dist adjacency s e.1 = e.2 := by
  intro Q V
  induction Q, V using bfs_trace.induct adjacency with
  | case1 V =>
      intro _ e he
      rw [bfs_trace] at he
      exact absurd he (List.not_mem_nil e)
  | case2 x d rest visited ih =>
      intro hinv e he
      rw [bfs_trace] at he
      rcases List.mem_cons.mp he with rfl | htail
      · exact hinv.sound (x, d) (List.mem_cons_self _ _)
      · exact ih (bfs_inv_step adjacency s x d rest visited hinv) e htail

theorem bfs_trace_complete (adjacency : List (String × List String)) (s : String) :
    ∀ (Q : List (String × ℕ)) (V : List String), BfsInv adjacency s Q V →
      ∀ y, Reaches adjacency s y →
        y ∈ (bfs_trace adjacency Q V).map Prod.fst ∨
          (y ∈ V ∧ ∀ e ∈ Q, e.1 ≠ y) := by
  intro Q V
  induction Q, V using bfs_trace.induct adjacency with
  | case1 V =>
      intro hinv y hy
      right
      obtain ⟨n, hn⟩ := hy
      have hclosed : ∀ v ∈ V, ∀ w ∈ adj_get adjacency v, w ∈ V := by
        intro v hv w hw
        exact hinv.closed v hv (fun e he => absurd he (List.not_mem_nil e)) w hw
      exact ⟨reachN_mem_closed adjacency V hclosed s hinv.src n y hn,
        fun e he => absurd he (List.not_mem_nil e)⟩
  | case2 x d rest visited ih =>
      intro hinv y hy
      obtain ⟨new, h1, h2, h3, h4⟩ := bfs_scan_spec d (adj_get adjacency x) (rest, visited)
      rcases ih (bfs_inv_step adjacency s x d rest visited hinv) y hy with hmem | ⟨hyV, hynot⟩
      · left
        rw [bfs_trace]
        exact List.mem_cons_of_mem _ hmem
      · rcases (h2 y).mp hyV with hyV0 | hynew
        · by_cases hyx : y = x
          · left
            rw [bfs_trace, hyx]
            exact List.mem_cons_self _ _
          · right
            refine ⟨hyV0, ?_⟩
            intro e he
            rcases List.mem_cons.mp he with rfl | hr
            · exact fun h => hyx h.symm
            · refine hynot e ?_
              rw [h1]
              exact List.mem_append_left _ hr
        · exfalso
          refine hynot (y, d + 1) ?_ rfl
          rw [h1]
          exact List.mem_append_right _ (List.mem_map_of_mem _ hynew)

theorem bfs_from_eq_trace (adjacency : List (String × List String)) :
    ∀ (Q : List (String × ℕ)) (V : List String) (nodes : List TopologyNode),
      bfs_from adjacency nodes Q V =
        (bfs_trace adjacency Q V).foldl (fun ns e => update_level ns e.1 e.2) nodes := by
  intro Q V
  induction Q, V using bfs_trace.induct adjacency with
  | case1 V =>
      intro nodes
      rw [bfs_from, bfs_trace]
      rfl
  | case2 x d rest visited ih =>
      intro nodes
      rw [bfs_from, bfs_trace, List.foldl_cons]
      exact ih (update_level nodes x d)

theorem foldl_update_eq_map (tr : List (String × ℕ)) :
    ∀ (nodes : List TopologyNode),
      tr.foldl (fun ns e => update_level ns e.1 e.2) nodes =
        nodes.map (fun n => tr.foldl (fun m e => upd_node e m) n) := by
  induction tr with
  | nil =>
      intro nodes
      simp
  | cons e tr' ih =>
      intro nodes
      simp only [List.foldl_cons]
      rw [ih (update_level nodes e.1 e.2)]
      show (nodes.map (upd_node e)).map _ = _
      rw [List.map_map]
      rfl

theorem merge_level_idem (c : ℤ) (d : ℕ) :
    merge_level (merge_level c d) d = merge_level c d := by
  by_cases h : c = -1 ∨ (d : ℤ) < c
  · have hcd : merge_level c d = (d : ℤ) := by
      unfold merge_level
      rw [if_pos h]
    rw [hcd]
    unfold merge_level
    split_ifs <;> rfl
  · have hcd : merge_level c d = c := by
      unfold merge_level
      rw [if_neg h]
    rw [hcd]
    exact hcd

theorem foldl_upd_not_mem : ∀ (tr : List (String × ℕ)) (n : TopologyNode),
    (∀ e ∈ tr, e.1 ≠ n.id) → tr.foldl (fun m e => upd_node e m) n = n := by
  intro tr
  induction tr with
  | nil => intro n _; rfl
  | cons e tr' ih =>
      intro n h
      rw [List.foldl_cons]
      have hupd : upd_node e n = n := by
        unfold upd_node
        rw [if_neg (fun hh => h e (List.mem_cons_self _ _) hh.symm)]
      rw [hupd]
      exact ih n (fun e' he' => h e' (List.mem_cons_of_mem _ he'))

theorem foldl_upd_const : ∀ (tr : List (String × ℕ)) (x : String) (d : ℕ)
    (n : TopologyNode), n.id = x → (∀ e ∈ tr, e.1 = x → e.2 = d) →
    x ∈ tr.map Prod.fst →
    tr.foldl (fun m e => upd_node e m) n = { n with level := merge_level n.level d } := by
  intro tr
  induction tr with
  | nil =>
      intro x d n _ _ hmem
      simp at hmem
  | cons e tr' ih =>
      intro x d n hn h hmem
      rw [List.foldl_cons]
      by_cases he : e.1 = x
      · have hed : e.2 = d := h e (List.mem_cons_self _ _) he
        have hupd : upd_node e n = { n with level := merge_level n.level d } := by
          unfold upd_node
          rw [if_pos (hn.trans he.symm), hed]
        rw [hupd]
        by_cases hmem' : x ∈ tr'.map Prod.fst
        · rw [ih x d { n with level := merge_level n.level d } hn
            (fun e' he' => h e' (List.mem_cons_of_mem _ he')) hmem']
          simp [merge_level_idem]
        · rw [foldl_upd_not_mem tr' _ ?_]
          intro e' he' hc
          have hx : e'.1 = x := by
            have h0 : e'.1 = n.id := hc
            rw [h0, hn]
          exact hmem' (hx ▸ List.mem_map_of_mem Prod.fst he')
      · have hupd : upd_node e n = n := by
          unfold upd_node
          rw [if_neg (fun hh => he (hn ▸ hh.symm))]
        rw [hupd]
        have hmem' : x ∈ tr'.map Prod.fst := by
          rw [List.map_cons, List.mem_cons] at hmem
          rcases hmem with rfl | hm
          · exact absurd rfl he
          · exact hm
        exact ih x d n hn (fun e' he' => h e' (List.mem_cons_of_mem _ he')) hmem'

theorem bfs_inv_init (adjacency : List (String × List String)) (s : String) :
    BfsInv adjacency s [(s, 0)] [s] := by
  refine ⟨?_, ?_, ?_, ?_, ?_, ?_⟩
  · intro e he
    rw [List.mem_singleton] at he
    subst he
    refine ⟨⟨0, ReachN.refl s⟩, ?_⟩
    show bfs_dist adjacency s s = 0
    have := bfs_dist_le adjacency s s 0 (ReachN.refl s)
    omega
  · exact List.pairwise_singleton _ _
  · intro e he p _
    rw [List.mem_singleton] at he
    subst he
    exact Nat.zero_le _
  · intro e he
    rw [List.mem_singleton] at he
    subst he
    exact List.mem_singleton.mpr rfl
  · intro v hv hnot
    rw [List.mem_singleton] at hv
    subst hv
    exact absurd rfl (hnot (v, 0) (List.mem_singleton.mpr rfl))
  · exact List.mem_singleton.mpr rfl

theorem bfs_single_source (adjacency : List (String × List String)) (s : String)
    (nodes : List TopologyNode) :
    bfs_from adjacency nodes [(s, 0)] [s] =
      nodes.map (source_levelled adjacency s) := by
  rw [bfs_from_eq_trace, foldl_update_eq_map]
  have hfun : (fun n => (bfs_trace adjacency [(s, 0)] [s]).foldl
      (fun m e => upd_node e m) n) = source_levelled adjacency s := by
    funext n
    have hsound := bfs_trace_sound adjacency s [(s, 0)] [s] (bfs_inv_init adjacency s)
    by_cases hr : Reaches adjacency s n.id
    · have hmem : n.id ∈ (bfs_trace adjacency [(s, 0)] [s]).map Prod.fst := by
        rcases bfs_trace_complete adjacency s [(s, 0)] [s] (bfs_inv_init adjacency s)
          n.id hr with hm | ⟨hV, hne⟩
        · exact hm
        · exfalso
          rw [List.mem_singleton] at hV
          exact hne (s, 0) (List.mem_singleton.mpr rfl) hV.symm
      rw [source_levelled, if_pos hr]
      refine foldl_upd_const _ n.id (bfs_dist adjacency s n.id) n rfl ?_ hmem
      intro e he h1
      have h2 := (hsound e he).2
      rw [h1] at h2
      exact h2.symm
    · rw [source_levelled, if_neg hr]
      apply foldl_upd_not_mem
      intro e he hc
      exact hr (hc ▸ (hsound e he).1)
  rw [hfun]

theorem levels_as_map (adjacency : List (String × List String)) (srcs : List String) :
    ∀ nodes : List TopologyNode,
      srcs.foldl (fun ns s => bfs_from adjacency ns [(s, 0)] [s]) nodes =
        nodes.map (fun n => srcs.foldl (fun m s => source_levelled adjacency s m) n) := by
  induction srcs with
  | nil =>
      intro nodes
      simp
  | cons s t ih =>
      intro nodes
      rw [List.foldl_cons, bfs_single_source, ih, List.map_map]
      simp only [List.foldl_cons]
      rfl

theorem fold_source_levelled_level (adjacency : List (String × List String))
    (srcs : List String) :
    ∀ m : TopologyNode,
      srcs.foldl (fun m s => source_levelled adjacency s m) m =
        { m with level := srcs.foldl (source_merge adjacency m.id) m.level } := by
  induction srcs with
  | nil => intro m; rfl
  | cons s t ih =>
      intro m
      rw [List.foldl_cons, List.foldl_cons]
      have hstep : source_levelled adjacency s m =
          { m with level := source_merge adjacency m.id m.level s } := by
        unfold source_levelled source_merge
        split_ifs <;> rfl
      rw [hstep, ih]

theorem merge_level_le (c : ℤ) (d : ℕ) : merge_level c d ≤ (d : ℤ) := by
  unfold merge_level
  split_ifs with h
  · exact le_refl _
  · push_neg at h
    omega

theorem merge_level_le_self (c : ℤ) (d : ℕ) (h : 0 ≤ c) : merge_level c d ≤ c := by
  unfold merge_level
  split_ifs with h1
  · rcases h1 with h1 | h1 <;> omega
  · exact le_refl _

theorem merge_level_nonneg (c : ℤ) (d : ℕ) (h : 0 ≤ c ∨ c = -1) :
    0 ≤ merge_level c d := by
  unfold merge_level
  split_ifs with h1
  · positivity
  · push_neg at h1
    rcases h with h | h
    · exact h
    · exact absurd h h1.1

theorem merge_level_cases (c : ℤ) (d : ℕ) :
    merge_level c d = c ∨ merge_level c d = (d : ℤ) := by
  unfold merge_level
  split_ifs with h1
  · exact Or.inr rfl
  · exact Or.inl rfl

theorem fold_merge_cases (adjacency : List (String × List String)) (x : String) :
    ∀ (srcs : List String) (c : ℤ), (0 ≤ c ∨ c = -1) →
      ((∀ s ∈ srcs, ¬ Reaches adjacency s x) →
          srcs.foldl (source_merge adjacency x) c = c) ∧
      (∀ s ∈ srcs, Reaches adjacency s x →
          srcs.foldl (source_merge adjacency x) c ≤ (bfs_dist adjacency s x : ℤ)) ∧
      (0 ≤ c → srcs.foldl (source_merge adjacency x) c ≤ c) ∧
      (srcs.foldl (source_merge adjacency x) c = c ∨
        ∃ s ∈ srcs, Reaches adjacency s x ∧
          srcs.foldl (source_merge adjacency x) c = (bfs_dist adjacency s x : ℤ)) ∧
      (0 ≤ c → 0 ≤ srcs.foldl (source_merge adjacency x) c) ∧
      ((∃ s ∈ srcs, Reaches adjacency s x) →
          0 ≤ srcs.foldl (source_merge adjacency x) c) := by
  intro srcs
  induction srcs with
  | nil =>
      intro c hc
      refine ⟨fun _ => rfl, by simp, fun _ => le_refl _, Or.inl rfl, fun h => h, ?_⟩
      rintro ⟨s, hs, _⟩
      exact absurd hs (List.not_mem_nil s)
  | cons s₀ t ih =>
      intro c hc
      simp only [List.foldl_cons]
      have hskip : ¬ Reaches adjacency s₀ x → source_merge adjacency x c s₀ = c := by
        intro h
        unfold source_merge
        rw [if_neg h]
      have hmerge : Reaches adjacency s₀ x →
          source_merge adjacency x c s₀ = merge_level c (bfs_dist adjacency s₀ x) := by
        intro h
        unfold source_merge
        rw [if_pos h]
      have hc' : 0 ≤ source_merge adjacency x c s₀ ∨ source_merge adjacency x c s₀ = -1 := by
        by_cases h : Reaches adjacency s₀ x
        · rw [hmerge h]
          exact Or.inl (merge_level_nonneg _ _ hc)
        · rw [hskip h]
          exact hc
      obtain ⟨A, B, Cb, D, E, F⟩ := ih (source_merge adjacency x c s₀) hc'
      refine ⟨?_, ?_, ?_, ?_, ?_, ?_⟩
      · intro h
        rw [A (fun s hs => h s (List.mem_cons_of_mem _ hs))]
        exact hskip (h s₀ (List.mem_cons_self _ _))
      · intro s hs hrs
        rcases List.mem_cons.mp hs with rfl | hs'
        · have h0 : 0 ≤ source_merge adjacency x c s := by
            rw [hmerge hrs]
            exact merge_level_nonneg _ _ hc
          refine le_trans (Cb h0) ?_
          rw [hmerge hrs]
          exact merge_level_le _ _
        · exact B s hs' hrs
      · intro hc0
        have hle : source_merge adjacency x c s₀ ≤ c := by
          by_cases h : Reaches adjacency s₀ x
          · rw [hmerge h]
            exact merge_level_le_self _ _ hc0
          · rw [hskip h]
        have h0 : 0 ≤ source_merge adjacency x c s₀ := by
          by_cases h : Reaches adjacency s₀ x
          · rw [hmerge h]
            exact merge_level_nonneg _ _ hc
          · rw [hskip h]
            exact hc0
        exact le_trans (Cb h0) hle
      · rcases D with hD | ⟨s, hs, hrs, hEq⟩
        · rw [hD]
          by_cases h : Reaches adjacency s₀ x
          · rw [hmerge h]
            rcases merge_level_cases c (bfs_dist adjacency s₀ x) with h1 | h1
            · exact Or.inl h1
            · exact Or.inr ⟨s₀, List.mem_cons_self _ _, h, h1⟩
          · exact Or.inl (hskip h)
        · exact Or.inr ⟨s, List.mem_cons_of_mem _ hs, hrs, hEq⟩
      · intro hc0
        refine E ?_
        by_cases h : Reaches adjacency s₀ x
        · rw [hmerge h]
          exact merge_level_nonneg _ _ hc
        · rw [hskip h]
          exact hc0
      · rintro ⟨s, hs, hrs⟩
        rcases List.mem_cons.mp hs with rfl | hs'
        · refine E ?_
          rw [hmerge hrs]
          exact merge_level_nonneg _ _ hc
        · exact F ⟨s, hs', hrs⟩

theorem min_dist_sInf (adjacency : List (String × List String)) (x : String)
    (srcs : List String) (s₀ : String) (hs₀ : s₀ ∈ srcs)
    (hr₀ : Reaches adjacency s₀ x)
    (hmin : ∀ s ∈ srcs, Reaches adjacency s x →
      bfs_dist adjacency s₀ x ≤ bfs_dist adjacency s x) :
    bfs_dist adjacency s₀ x = sInf { m : ℕ | ∃ s ∈ srcs, ReachN adjacency s m x } := by
  apply le_antisymm
  · have hne : { m : ℕ | ∃ s ∈ srcs, ReachN adjacency s m x }.Nonempty :=
      ⟨bfs_dist adjacency s₀ x, ⟨s₀, hs₀, reachN_bfs_dist _ _ _ hr₀⟩⟩
    obtain ⟨s₁, hs₁, hr₁⟩ := Nat.sInf_mem hne
    exact le_trans (hmin s₁ hs₁ ⟨_, hr₁⟩) (bfs_dist_le _ _ _ _ hr₁)
  · exact Nat.sInf_le ⟨s₀, hs₀, reachN_bfs_dist _ _ _ hr₀⟩

theorem fold_source_levelled_type (adjacency : List (String × List String))
    (srcs : List String) (m : TopologyNode) :
    (srcs.foldl (fun m s => source_levelled adjacency s m) m).type = m.type := by
  rw [fold_source_levelled_level]

theorem fold_source_levelled_id (adjacency : List (String × List String))
    (srcs : List String) (m : TopologyNode) :
    (srcs.foldl (fun m s => source_levelled adjacency s m) m).id = m.id := by
  rw [fold_source_levelled_level]

theorem fold_source_levelled_lvl (adjacency : List (String × List String))
    (srcs : List String) (m : TopologyNode) :
    (srcs.foldl (fun m s => source_levelled adjacency s m) m).level =
      srcs.foldl (source_merge adjacency m.id) m.level := by
  rw [fold_source_levelled_level]

theorem reset_node_type (n : TopologyNode) : (reset_node n).type = n.type := by
  unfold reset_node
  split_ifs <;> rfl

theorem reset_node_id (n : TopologyNode) : (reset_node n).id = n.id := by
  unfold reset_node
  split_ifs <;> rfl

theorem reset_node_source (n : TopologyNode) (h : n.type = "Source") :
    reset_node n = n := by
  unfold reset_node
  rw [if_neg (fun hc => hc h)]

theorem reset_node_nonsource (n : TopologyNode) (h : n.type ≠ "Source") :
    (reset_node n).level = -1 := by
  unfold reset_node
  rw [if_pos h]

theorem calculate_network_levels_nodes (g : TopologyGraph) :
    (calculate_network_levels g).nodes =
      (g.nodes.map reset_node).map
        (fun n => g.sources.foldl (fun m s => source_levelled g.adjacency s m) n) := by
  show g.sources.foldl _ (g.nodes.map reset_node) = _
  exact levels_as_map g.adjacency g.sources (g.nodes.map reset_node)

/-- Claim C7: after `calculate_network_levels` runs (on a graph state whose
add_node invariants hold: sources have stored level 0, and the `sources`
list consists exactly of the ids of Source-type nodes), every Source-type
node has level 0; every non-source node reachable from at least one source
has level equal to the minimum BFS distance (number of directed edges) from
any source — in particular its level is ≥ 0; and every unreachable
non-source node has level −1. -/
theorem calculate_network_levels_correct (g : TopologyGraph)
    (hsrc0 : ∀ n ∈ g.nodes, n.type = "Source" → n.level = 0)
    (_hsources : ∀ s, s ∈ g.sources ↔
      ∃ n ∈ g.nodes, n.type = "Source" ∧ n.id = s) :
    (∀ n ∈ (calculate_network_levels g).nodes, n.type = "Source" → n.level = 0) ∧
    (∀ n ∈ (calculate_network_levels g).nodes, n.type ≠ "Source" →
      (∃ s ∈ g.sources, Reaches g.adjacency s n.id) →
      0 ≤ n.level ∧
      n.level = ((sInf { m : ℕ | ∃ s ∈ g.sources, ReachN g.adjacency s m n.id } : ℕ) : ℤ)) ∧
    (∀ n ∈ (calculate_network_levels g).nodes, n.type ≠ "Source" →
      ¬ (∃ s ∈ g.sources, Reaches g.adjacency s n.id) → n.level = -1) := by
  refine ⟨?_, ?_, ?_⟩
  · intro n' hn' htype
    rw [calculate_network_levels_nodes] at hn'
    obtain ⟨m, hm, rfl⟩ := List.mem_map.mp hn'
    obtain ⟨n, hn, rfl⟩ := List.mem_map.mp hm
    rw [fold_source_levelled_type, reset_node_type] at htype
    rw [fold_source_levelled_lvl, reset_node_id, reset_node_source n htype,
      hsrc0 n hn htype]
    obtain ⟨_, _, C3, _, E, _⟩ :=
      fold_merge_cases g.adjacency n.id g.sources 0 (Or.inl (le_refl 0))
    exact le_antisymm (C3 (le_refl 0)) (E (le_refl 0))
  · intro n' hn' htype hreach
    rw [calculate_network_levels_nodes] at hn'
    obtain ⟨m, hm, rfl⟩ := List.mem_map.mp hn'
    obtain ⟨n, hn, rfl⟩ := List.mem_map.mp hm
    rw [fold_source_levelled_type, reset_node_type] at htype
    rw [fold_source_levelled_id, reset_node_id] at hreach
    rw [fold_source_levelled_lvl, reset_node_id, reset_node_nonsource n htype,
      fold_source_levelled_id, reset_node_id]
    obtain ⟨_, B, _, D, _, F⟩ :=
      fold_merge_cases g.adjacency n.id g.sources (-1) (Or.inr rfl)
    have hge : 0 ≤ g.sources.foldl (source_merge g.adjacency n.id) (-1) := F hreach
    rcases D with hD | ⟨s₀, hs₀, hr₀, hEq⟩
    · omega
    · have hmin : ∀ s ∈ g.sources, Reaches g.adjacency s n.id →
          bfs_dist g.adjacency s₀ n.id ≤ bfs_dist g.adjacency s n.id := by
        intro s hs hrs
        have := B s hs hrs
        rw [hEq] at this
        exact_mod_cast this
      refine ⟨hge, ?_⟩
      rw [hEq,
        min_dist_sInf g.adjacency n.id g.sources s₀ hs₀ hr₀ hmin]
  · intro n' hn' htype hnone
    rw [calculate_network_levels_nodes] at hn'
    obtain ⟨m, hm, rfl⟩ := List.mem_map.mp hn'
    obtain ⟨n, hn, rfl⟩ := List.mem_map.mp hm
    rw [fold_source_levelled_type, reset_node_type] at htype
    rw [fold_source_levelled_id, reset_node_id] at hnone
    rw [fold_source_levelled_lvl, reset_node_id, reset_node_nonsource n htype]
    obtain ⟨A, _, _, _, _, _⟩ :=
      fold_merge_cases g.adjacency n.id g.sources (-1) (Or.inr rfl)
    refine A ?_
    intro s hs hrs
    exact hnone ⟨s, hs, hrs⟩

/-- Witness for C7 on the two-node fixture (source `"s"` feeding bus `"a"`). -/
theorem calculate_network_levels_correct_witness :
    (∀ n ∈ topo_fixture.nodes, n.type = "Source" → n.level = 0) ∧
    (∀ s, s ∈ topo_fixture.sources ↔
      ∃ n ∈ topo_fixture.nodes, n.type = "Source" ∧ n.id = s) ∧
    (∀ n ∈ (calculate_network_levels topo_fixture).nodes,
      n.type = "Source" → n.level = 0) := by
  have h0 : ∀ n ∈ topo_fixture.nodes, n.type = "Source" → n.level = 0 := by
    intro n hn
    rcases List.mem_cons.mp hn with rfl | hn'
    · intro _; rfl
    · rcases List.mem_cons.mp hn' with rfl | hn''
      · intro h; exact absurd h (by decide)
      · exact absurd hn'' (List.not_mem_nil n)
  have h1 : ∀ s, s ∈ topo_fixture.sources ↔
      ∃ n ∈ topo_fixture.nodes, n.type = "Source" ∧ n.id = s := by
    intro s
    constructor
    · intro hs
      rcases List.mem_cons.mp hs with rfl | hs'
      · exact ⟨⟨"s", "Source", 0⟩, List.mem_cons_self _ _, rfl, rfl⟩
      · exact absurd hs' (List.not_mem_nil s)
    · rintro ⟨n, hn, htype, hid⟩
      rcases List.mem_cons.mp hn with rfl | hn'
      · rw [← hid]; exact List.mem_cons_self _ _
      · rcases List.mem_cons.mp hn' with rfl | hn''
        · exact absurd htype (by decide)
        · exact absurd hn'' (List.not_mem_nil n)
  exact ⟨h0, h1, (calculate_network_levels_correct topo_fixture h0 h1).1⟩

end PowerSysPro
